import Mathlib

/-!
# Saturation-solver initial guesses of `VLERoutines.h`

A shallow embedding of the inline routines of
`src/Backends/Helmholtz/VLERoutines.h`: the Wilson K-factor correlation
(`Wilson_lnK_factor`), the Rachford-Rice style residual built on it
(`WilsonK_resid`), the triple-point / critical-point preconditioner
(`saturation_preconditioner`) and the secant driver (`saturation_Wilson`).

Numbers live in an arbitrary field `α`; the C library functions `log` and
`exp` are passed in as arguments, so every definition can be run on rational
inputs, and the theorems instantiate them with `Real.log` and `Real.exp`.
A `std::vector` is a `List`; an unchecked subscript past the end of a
vector and a read of a member that was never assigned are reported as
`Fault.Undefined`, a C++ `throw ValueError` as `Fault.ValueError`.
Loop counters are taken as natural numbers (vectors are far shorter than
`2^32` entries).
-/

namespace CoolProp

/-- How a call can fail: a thrown `ValueError`, or behaviour the C++
standard leaves undefined (subscript out of range, uninitialised read). -/
inductive Fault where
  | ValueError
  | Undefined
  deriving DecidableEq, Repr

/-- Modelled from the spec: the state record declared in another header; only
the temperature and pressure members read by `VLERoutines.h` are kept. -/
structure SimpleState (α : Type) where
  T : α
  p : α

/-- Modelled from the spec: the per-component constant table declared in
another header, with the members read here: the reducing (critical) state
`reduce`, the triple-point liquid state `sat_min_liquid` and the acentric
factor `accentric`. -/
structure EquationOfState (α : Type) where
  reduce : SimpleState α
  sat_min_liquid : SimpleState α
  accentric : α

/-- Modelled from the spec: a component of the mixture, declared in another
header; `pEOS` is the equation of state the pointer refers to. -/
structure CoolPropFluid (α : Type) where
  pEOS : EquationOfState α

/-- Modelled from the spec: the mixture backend declared in
`HelmholtzEOSMixtureBackend.h`, with what `get_components()` and `get_K()`
give access to. -/
structure HelmholtzEOSMixtureBackend (α : Type) where
  components : List (CoolPropFluid α)
  K : List α

namespace SaturationSolvers

variable {α : Type}

/-- Unchecked read `v[i]` of a vector. -/
def readAt {β : Type} (v : List β) (i : Nat) : Except Fault β :=
  match v[i]? with
  | some a => Except.ok a
  | none => Except.error Fault.Undefined

/-- Unchecked write `v[i] = a` of a vector. -/
def writeAt {β : Type} (v : List β) (i : Nat) (a : β) : Except Fault (List β) :=
  if i < v.length then Except.ok (v.set i a) else Except.error Fault.Undefined

/-- Read of a data member that holds a value only once it has been assigned. -/
def readMember {β : Type} (m : Option β) : Except Fault β :=
  match m with
  | some a => Except.ok a
  | none => Except.error Fault.Undefined

/-- First enumerator of `enum sstype_enum {imposed_T, imposed_p}`. -/
def imposed_T : Int := 0

/-- Second enumerator of `enum sstype_enum {imposed_T, imposed_p}`. -/
def imposed_p : Int := 1

/-- The function `Wilson_lnK_factor(HEOS, T, p, i)`: logarithm of the Wilson K-factor of
component `i` (a signed `int` index). -/
def Wilson_lnK_factor [Field α] (log : α → α) (HEOS : HelmholtzEOSMixtureBackend α)
    (T p : α) (i : Int) : Except Fault α :=
  if i < 0 then Except.error Fault.Undefined
  else do
    let fluid ← readAt HEOS.components i.toNat
    let EOS := fluid.pEOS
    return log (EOS.reduce.p / p) + 5.373 * (1 + EOS.accentric) * (1 - EOS.reduce.T / T)

/-- The class `WilsonK_resid`. The members `z`, `K` and `HEOS` are pointers in
the source; here they hold the pointed-to values, so `K` is the current
content of the vector the residual is bound to. `T` and `p` are `none` until
they are assigned. -/
structure WilsonK_resid (α : Type) where
  input_type : Int
  T : Option α
  p : Option α
  beta : α
  z : List α
  K : List α
  HEOS : HelmholtzEOSMixtureBackend α

/-- The constructor `WilsonK_resid(HEOS, beta, imposed_value, input_type, z, K)`:
only one of `T` and `p` is assigned. -/
def WilsonK_resid.new (HEOS : HelmholtzEOSMixtureBackend α) (beta imposed_value : α)
    (input_type : Int) (z K : List α) : WilsonK_resid α :=
  if input_type = imposed_T then
    { input_type := input_type, T := some imposed_value, p := none, beta := beta,
      z := z, K := K, HEOS := HEOS }
  else
    { input_type := input_type, T := none, p := some imposed_value, beta := beta,
      z := z, K := K, HEOS := HEOS }

/-- One pass of the loop body of `WilsonK_resid::call` for counter `i`, on
the pair (bound vector `K`, accumulator `summer`). -/
def WilsonK_resid.step [Field α] (log exp : α → α) (self : WilsonK_resid α)
    (acc : List α × α) (i : Nat) : Except Fault (List α × α) := do
  let T ← readMember self.T
  let p ← readMember self.p
  let lnK ← Wilson_lnK_factor log self.HEOS T p (i : Int)
  let K ← writeAt acc.1 i (exp lnK)
  let zi ← readAt self.z i
  let Ki ← readAt K i
  return (K, acc.2 + zi * (Ki - 1) / (1 - self.beta + self.beta * Ki))

/-- The method `WilsonK_resid::call(input_value)`: returns `summer` together
with the object after the call (its `T` or `p` and the bound `K` updated). -/
def WilsonK_resid.call [Field α] (log exp : α → α) (self : WilsonK_resid α)
    (input_value : α) : Except Fault (α × WilsonK_resid α) := do
  let self1 : WilsonK_resid α :=
    if self.input_type = imposed_T then { self with p := some input_value }
    else { self with T := some input_value }
  let r ← (List.range self1.z.length).foldlM (WilsonK_resid.step log exp self1) (self1.K, 0)
  return (r.2, { self1 with K := r.1 })

/-- One pass of the summation loop of `saturation_preconditioner` on
`(ptriple, pcrit, Ttriple, Tcrit)`. -/
def saturation_preconditioner.step [Field α] (HEOS : HelmholtzEOSMixtureBackend α)
    (z : List α) (acc : α × α × α × α) (i : Nat) : Except Fault (α × α × α × α) := do
  let fluid ← readAt HEOS.components i
  let EOS := fluid.pEOS
  let zi ← readAt z i
  return (acc.1 + EOS.sat_min_liquid.p * zi,
          acc.2.1 + EOS.reduce.p * zi,
          acc.2.2.1 + EOS.sat_min_liquid.T * zi,
          acc.2.2.2 + EOS.reduce.T * zi)

/-- The function `saturation_preconditioner(HEOS, input_value, input_type, z)`:
the four weighted sums, then the branch on `input_type`. -/
def saturation_preconditioner [Field α] (log exp : α → α)
    (HEOS : HelmholtzEOSMixtureBackend α) (input_value : α) (input_type : Int)
    (z : List α) : Except Fault α := do
  let s ← (List.range z.length).foldlM (saturation_preconditioner.step HEOS z) (0, 0, 0, 0)
  let ptriple := s.1
  let pcrit := s.2.1
  let Ttriple := s.2.2.1
  let Tcrit := s.2.2.2
  if input_type = imposed_T then
    return exp (log (pcrit / ptriple) / (Tcrit - Ttriple) * (input_value - Ttriple) + log ptriple)
  else if input_type = imposed_p then
    return 1 / (1 / Tcrit - (1 / Ttriple - 1 / Tcrit) / log (pcrit / ptriple) * log (input_value / pcrit))
  else throw Fault.ValueError

/-- The function `saturation_Wilson(HEOS, beta, input_value, input_type, z, guess)`. The
root finder `Secant` and the test `ValidNumber` are defined in other files
and are arguments here: `Secant f x0 dx tol maxiter` gives the value it
returns and the residual object as the iterations left it. The backend is
returned with its `K` vector as the residual last wrote it. -/
def saturation_Wilson [Field α]
    (Secant : WilsonK_resid α → α → α → α → Int → Except Fault (α × WilsonK_resid α))
    (ValidNumber : α → Bool)
    (HEOS : HelmholtzEOSMixtureBackend α) (beta input_value : α) (input_type : Int)
    (z : List α) (guess : α) : Except Fault (α × HelmholtzEOSMixtureBackend α) := do
  let Resid := WilsonK_resid.new HEOS beta input_value input_type z HEOS.K
  let r ← Secant Resid guess 0.001 1e-10 100
  let T := r.1
  if !ValidNumber T then throw Fault.ValueError
  return (T, { HEOS with K := r.2.K })

/-- Scaling of a vector by the reciprocal of the sum of its entries. -/
def normalize_vector [Field α] (v : List α) : List α :=
  v.map (fun a => a / v.sum)

/-- Modelled from the spec: `x_and_y_from_K` is only declared in
`VLERoutines.h`, its body is in a file that is not part of the sources.
Following the spec, `x_i = z_i/(1-beta+beta*K_i)` and `y_i = K_i*x_i` for
every component, then both vectors are renormalised to sum to 1. The two
output vectors are returned as a pair `(x, y)`. -/
def x_and_y_from_K [Field α] (beta : α) (K z : List α) : List α × List α :=
  let x := List.zipWith (fun zi Ki => zi / (1 - beta + beta * Ki)) z K
  let y := List.zipWith (fun Ki xi => Ki * xi) K x
  (normalize_vector x, normalize_vector y)

/-! ## Names for the quantities the statements speak about -/

/-- Reducing (critical) pressure `p_c,i` of component `i` (`0` past the end). -/
def pc_i [Zero α] (HEOS : HelmholtzEOSMixtureBackend α) (i : Nat) : α :=
  match HEOS.components[i]? with
  | some fluid => fluid.pEOS.reduce.p
  | none => 0

/-- Reducing (critical) temperature `T_c,i` of component `i` (`0` past the end). -/
def Tc_i [Zero α] (HEOS : HelmholtzEOSMixtureBackend α) (i : Nat) : α :=
  match HEOS.components[i]? with
  | some fluid => fluid.pEOS.reduce.T
  | none => 0

/-- Acentric factor `omega_i` of component `i` (`0` past the end). -/
def omega_i [Zero α] (HEOS : HelmholtzEOSMixtureBackend α) (i : Nat) : α :=
  match HEOS.components[i]? with
  | some fluid => fluid.pEOS.accentric
  | none => 0

/-- Triple-point liquid pressure of component `i` (`0` past the end). -/
def pt_i [Zero α] (HEOS : HelmholtzEOSMixtureBackend α) (i : Nat) : α :=
  match HEOS.components[i]? with
  | some fluid => fluid.pEOS.sat_min_liquid.p
  | none => 0

/-- Triple-point liquid temperature of component `i` (`0` past the end). -/
def Tt_i [Zero α] (HEOS : HelmholtzEOSMixtureBackend α) (i : Nat) : α :=
  match HEOS.components[i]? with
  | some fluid => fluid.pEOS.sat_min_liquid.T
  | none => 0

/-- Entry `v_i` of a vector (`0` past the end). -/
def entry [Zero α] (v : List α) (i : Nat) : α := v.getD i 0

/-- The `z`-weighted sum `sum_{i < z.size()} c_i * z_i` of a per-component constant. -/
def zsum [Field α] (c : Nat → α) (z : List α) : α :=
  ∑ i in Finset.range z.length, c i * entry z i

/-- Wilson K-factor `K_i = exp(ln(p_c,i/p) + 5.373 (1+omega_i) (1 - T_c,i/T))`. -/
def WilsonK [Field α] (log exp : α → α) (HEOS : HelmholtzEOSMixtureBackend α)
    (T p : α) (i : Nat) : α :=
  exp (log (pc_i HEOS i / p) + 5.373 * (1 + omega_i HEOS i) * (1 - Tc_i HEOS i / T))

/-- The sum `sum_{i < z.size()} z_i (K_i - 1)/(1 - beta + beta K_i)` for given K-factors. -/
def rachfordRice [Field α] (beta : α) (z : List α) (K : Nat → α) : α :=
  ∑ i in Finset.range z.length, entry z i * (K i - 1) / (1 - beta + beta * K i)

/-- The object is a residual built from `(HEOS, beta, imposed_value, input_type, z)`
at any point of its life: the members set by the constructor are unchanged, and
the member holding the imposed value (`T` for `imposed_T`, `p` otherwise) still
holds it. The other one of `T`, `p` and the content of `K` are unconstrained. -/
def WilsonK_resid.BuiltFrom (self : WilsonK_resid α) (HEOS : HelmholtzEOSMixtureBackend α)
    (beta imposed_value : α) (input_type : Int) (z : List α) : Prop :=
  self.input_type = input_type ∧ self.beta = beta ∧ self.z = z ∧ self.HEOS = HEOS ∧
  (if input_type = imposed_T then self.T else self.p) = some imposed_value

/-! ## Concrete inputs used to instantiate the statements -/

/-- A two-component backend: both components have critical temperature 1,
critical pressures 1 and 3, triple points `(T, p) = (1/2, 1/4)` and
`(1/2, 1/2)`, acentric factor 0. -/
def demoBackend [Field α] : HelmholtzEOSMixtureBackend α :=
  { components :=
      [ { pEOS := { reduce := { T := 1, p := 1 }, sat_min_liquid := { T := 1/2, p := 1/4 },
                    accentric := 0 } },
        { pEOS := { reduce := { T := 1, p := 3 }, sat_min_liquid := { T := 1/2, p := 1/2 },
                    accentric := 0 } } ]
    K := [0, 0] }

/-- A one-component backend with critical point `(T, p) = (2, 2)`, triple
point `(T, p) = (1, 1)` and acentric factor 0. -/
def demoPure [Field α] : HelmholtzEOSMixtureBackend α :=
  { components :=
      [ { pEOS := { reduce := { T := 2, p := 2 }, sat_min_liquid := { T := 1, p := 1 },
                    accentric := 0 } } ]
    K := [0] }

/-- A stand-in root finder for instantiating statements: it evaluates the
residual once at the initial guess and returns the guess. -/
def demoSecant [Field α] (f : WilsonK_resid α) (x0 _dx _tol : α) (_maxiter : Int) :
    Except Fault (α × WilsonK_resid α) :=
  (f.call (fun a => a) (fun a => a) x0).map (fun r => (x0, r.2))

/-- The residual built on `demoBackend` with `beta = 0`, imposed `T = 1` and
`z = [1/2, 1/2]`, in the state a call at `p = 4` leaves it: `p` is 4 and the
bound vector holds the K-factors `[1/4, 3/4]` of that call. -/
def demoResid [Field α] : WilsonK_resid α :=
  { input_type := imposed_T, T := some 1, p := some 4, beta := 0, z := [1 / 2, 1 / 2],
    K := [1 / 4, 3 / 4], HEOS := demoBackend }

/-! ## Auxiliary lemmas: the loops in closed form -/

/-- A subscript inside the vector reads the entry. -/
theorem readAt_of_lt {β : Type} (v : List β) (i : Nat) (h : i < v.length) :
    readAt v i = Except.ok v[i] := by
  simp [readAt, List.getElem?_eq_getElem h]

/-- A subscript past the end of the vector is undefined. -/
theorem readAt_of_le {β : Type} (v : List β) (i : Nat) (h : v.length ≤ i) :
    readAt v i = Except.error Fault.Undefined := by
  simp [readAt, List.getElem?_eq_none h]

theorem entry_of_lt [Zero α] (z : List α) (i : Nat) (h : i < z.length) : entry z i = z[i] := by
  simp [entry, List.getD_eq_getElem?_getD, List.getElem?_eq_getElem h]

/-- A counting loop of `n + 1` passes is the loop of `n` passes followed by pass `n`. -/
theorem foldlM_range_succ {σ : Type} (f : σ → Nat → Except Fault σ) (s : σ) (n : Nat) :
    (List.range (n + 1)).foldlM f s = (List.range n).foldlM f s >>= fun t => f t n := by
  rw [List.range_succ, List.foldlM_append]
  simp

theorem preconditioner_step_eq [Field α] (HEOS : HelmholtzEOSMixtureBackend α) (z : List α)
    (acc : α × α × α × α) (i : Nat) (hz : i < z.length) (hc : i < HEOS.components.length) :
    saturation_preconditioner.step HEOS z acc i =
      Except.ok (acc.1 + pt_i HEOS i * entry z i, acc.2.1 + pc_i HEOS i * entry z i,
        acc.2.2.1 + Tt_i HEOS i * entry z i, acc.2.2.2 + Tc_i HEOS i * entry z i) := by
  simp [saturation_preconditioner.step, readAt_of_lt _ _ hz, readAt_of_lt _ _ hc, pt_i, pc_i,
    Tt_i, Tc_i, entry_of_lt z i hz, List.getElem?_eq_getElem hc, bind, Except.bind, pure,
    Except.pure]

/-- The summation loop of `saturation_preconditioner` after `n` passes holds the four
partial weighted sums. -/
theorem preconditioner_loop [Field α] (HEOS : HelmholtzEOSMixtureBackend α) (z : List α) :
    ∀ n : Nat, n ≤ z.length → n ≤ HEOS.components.length →
      (List.range n).foldlM (saturation_preconditioner.step HEOS z) (0, 0, 0, 0) =
        Except.ok (∑ i in Finset.range n, pt_i HEOS i * entry z i,
          ∑ i in Finset.range n, pc_i HEOS i * entry z i,
          ∑ i in Finset.range n, Tt_i HEOS i * entry z i,
          ∑ i in Finset.range n, Tc_i HEOS i * entry z i) := by
  intro n
  induction n with
  | zero => intro _ _; simp [pure, Except.pure]
  | succ n ih =>
    intro hz hc
    rw [foldlM_range_succ, ih (Nat.le_of_succ_le hz) (Nat.le_of_succ_le hc)]
    simp only [bind, Except.bind]
    rw [preconditioner_step_eq HEOS z _ n hz hc]
    simp [Finset.sum_range_succ]

/-- Closed form of `saturation_preconditioner` for a composition no longer than the
component list. -/
theorem preconditioner_eq [Field α] (log exp : α → α) (HEOS : HelmholtzEOSMixtureBackend α)
    (v : α) (it : Int) (z : List α) (hz : z.length ≤ HEOS.components.length) :
    saturation_preconditioner log exp HEOS v it z =
      if it = imposed_T then
        Except.ok (exp (log (zsum (pc_i HEOS) z / zsum (pt_i HEOS) z)
          / (zsum (Tc_i HEOS) z - zsum (Tt_i HEOS) z) * (v - zsum (Tt_i HEOS) z)
          + log (zsum (pt_i HEOS) z)))
      else if it = imposed_p then
        Except.ok (1 / (1 / zsum (Tc_i HEOS) z
          - (1 / zsum (Tt_i HEOS) z - 1 / zsum (Tc_i HEOS) z)
            / log (zsum (pc_i HEOS) z / zsum (pt_i HEOS) z) * log (v / zsum (pc_i HEOS) z)))
      else Except.error Fault.ValueError := by
  unfold saturation_preconditioner
  rw [preconditioner_loop HEOS z z.length le_rfl hz]
  simp only [bind, Except.bind, zsum]
  split_ifs <;> rfl

/-- Closed form of `Wilson_lnK_factor` at a component index, for any field and `log`. -/
theorem Wilson_lnK_factor_eq [Field α] (log : α → α) (HEOS : HelmholtzEOSMixtureBackend α)
    (T p : α) (i : Nat) (hi : i < HEOS.components.length) :
    Wilson_lnK_factor log HEOS T p (i : Int) =
      Except.ok (log (pc_i HEOS i / p) + 5.373 * (1 + omega_i HEOS i) * (1 - Tc_i HEOS i / T)) := by
  simp [Wilson_lnK_factor, readAt_of_lt _ _ hi, pc_i, omega_i, Tc_i,
    List.getElem?_eq_getElem hi, bind, Except.bind, pure, Except.pure]

theorem set_append_cons {β : Type} (l1 l2 : List β) (a b : β) :
    ∀ n : Nat, n = l1.length → (l1 ++ a :: l2).set n b = l1 ++ b :: l2 := by
  induction l1 with
  | nil => intro n hn; subst hn; rfl
  | cons c l ih =>
    intro n hn
    subst hn
    simp only [List.length_cons, List.cons_append, List.set_cons_succ]
    rw [ih l.length rfl]

theorem readAt_append_cons {β : Type} (l1 l2 : List β) (a : β) :
    ∀ n : Nat, n = l1.length → readAt (l1 ++ a :: l2) n = Except.ok a := by
  induction l1 with
  | nil => intro n hn; subst hn; simp [readAt]
  | cons c l ih =>
    intro n hn
    subst hn
    have h := ih l.length rfl
    simpa [readAt] using h

theorem set_stored (f : Nat → α) (K0 : List α) (n : Nat) (h : n < K0.length) (a : α) :
    ((List.range n).map f ++ K0.drop n).set n a
      = (List.range n).map f ++ a :: K0.drop (n + 1) := by
  rw [List.drop_eq_getElem_cons h]
  exact set_append_cons _ _ _ _ n (by simp)

theorem WilsonK_step_eq [Field α] (log exp : α → α) (self : WilsonK_resid α) (T p : α)
    (hT : self.T = some T) (hp : self.p = some p) (K0 : List α) (s : α) (n : Nat)
    (hz : n < self.z.length) (hc : n < self.HEOS.components.length) (hK : n < K0.length) :
    WilsonK_resid.step log exp self
        ((List.range n).map (WilsonK log exp self.HEOS T p) ++ K0.drop n, s) n =
      Except.ok ((List.range (n + 1)).map (WilsonK log exp self.HEOS T p) ++ K0.drop (n + 1),
        s + entry self.z n * (WilsonK log exp self.HEOS T p n - 1)
          / (1 - self.beta + self.beta * WilsonK log exp self.HEOS T p n)) := by
  have hlen : n < ((List.range n).map (WilsonK log exp self.HEOS T p) ++ K0.drop n).length := by
    simp; omega
  simp only [WilsonK_resid.step, hT, hp, readMember, Wilson_lnK_factor_eq log self.HEOS T p n hc,
    writeAt, hlen, if_true, set_stored _ K0 n hK, readAt_of_lt _ _ hz,
    readAt_append_cons ((List.range n).map (WilsonK log exp self.HEOS T p)) _ _ n (by simp),
    bind, Except.bind, pure, Except.pure, entry_of_lt _ _ hz]
  simp [List.range_succ, WilsonK]

/-- The loop of `WilsonK_resid::call` after `n` passes: the first `n` entries of the
bound vector hold the Wilson K-factors and the accumulator holds the partial sum. -/
theorem WilsonK_loop [Field α] (log exp : α → α) (self : WilsonK_resid α) (T p : α)
    (hT : self.T = some T) (hp : self.p = some p) (K0 : List α) :
    ∀ n : Nat, n ≤ self.z.length → n ≤ self.HEOS.components.length → n ≤ K0.length →
      (List.range n).foldlM (WilsonK_resid.step log exp self) (K0, 0) =
        Except.ok ((List.range n).map (WilsonK log exp self.HEOS T p) ++ K0.drop n,
          ∑ i in Finset.range n, entry self.z i * (WilsonK log exp self.HEOS T p i - 1)
            / (1 - self.beta + self.beta * WilsonK log exp self.HEOS T p i)) := by
  intro n
  induction n with
  | zero => intro _ _ _; simp [pure, Except.pure]
  | succ n ih =>
    intro hz hc hK
    rw [foldlM_range_succ, ih (Nat.le_of_succ_le hz) (Nat.le_of_succ_le hc) (Nat.le_of_succ_le hK)]
    simp only [bind, Except.bind]
    rw [WilsonK_step_eq log exp self T p hT hp K0 _ n hz hc hK, Finset.sum_range_succ]

/-- Closed form of `WilsonK_resid::call` on a freshly constructed residual: the value
returned and the object after the call. -/
theorem WilsonK_call_eq [Field α] (log exp : α → α) (HEOS : HelmholtzEOSMixtureBackend α)
    (beta imposed v : α) (it : Int) (z K : List α)
    (hz : z.length ≤ HEOS.components.length) (hK : z.length ≤ K.length) :
    (WilsonK_resid.new HEOS beta imposed it z K).call log exp v =
      Except.ok (rachfordRice beta z (WilsonK log exp HEOS (if it = imposed_T then imposed else v)
          (if it = imposed_T then v else imposed)),
        { input_type := it
          T := some (if it = imposed_T then imposed else v)
          p := some (if it = imposed_T then v else imposed)
          beta := beta
          z := z
          K := (List.range z.length).map (WilsonK log exp HEOS
                (if it = imposed_T then imposed else v) (if it = imposed_T then v else imposed))
               ++ K.drop z.length
          HEOS := HEOS }) := by
  by_cases h : it = imposed_T
  · simp only [WilsonK_resid.call, WilsonK_resid.new, h, if_true]
    rw [WilsonK_loop log exp _ imposed v rfl rfl K z.length le_rfl hz hK]
    simp [bind, Except.bind, pure, Except.pure, rachfordRice]
  · simp only [WilsonK_resid.call, WilsonK_resid.new, h, if_false]
    rw [WilsonK_loop log exp _ v imposed rfl rfl K z.length le_rfl hz hK]
    simp [bind, Except.bind, pure, Except.pure, rachfordRice]

/-! ## Auxiliary lemmas: sums, positivity and monotonicity -/

theorem zsum_demoPure_pt : zsum (pt_i (demoPure : HelmholtzEOSMixtureBackend ℝ)) [1] = 1 := by
  simp [zsum, pt_i, entry, demoPure]

theorem zsum_demoPure_pc : zsum (pc_i (demoPure : HelmholtzEOSMixtureBackend ℝ)) [1] = 2 := by
  simp [zsum, pc_i, entry, demoPure]

theorem zsum_demoPure_Tt : zsum (Tt_i (demoPure : HelmholtzEOSMixtureBackend ℝ)) [1] = 1 := by
  simp [zsum, Tt_i, entry, demoPure]

theorem zsum_demoPure_Tc : zsum (Tc_i (demoPure : HelmholtzEOSMixtureBackend ℝ)) [1] = 2 := by
  simp [zsum, Tc_i, entry, demoPure]

theorem entry_cons_zero [Zero α] (a : α) (z : List α) : entry (a :: z) 0 = a := by
  simp [entry]

theorem entry_cons_succ [Zero α] (a : α) (z : List α) (i : Nat) : entry (a :: z) (i + 1) = entry z i := by
  simp [entry]

/-- The sum of a list is the sum of its entries over the index range. -/
theorem sum_entry (z : List ℝ) : ∑ i in Finset.range z.length, entry z i = z.sum := by
  induction z with
  | nil => simp
  | cons a z ih =>
    rw [List.length_cons, Finset.sum_range_succ', List.sum_cons, entry_cons_zero, add_comm]
    simp only [entry_cons_succ, ih]

theorem entry_nonneg (z : List ℝ) (h0 : ∀ a ∈ z, 0 ≤ a) (i : Nat) : 0 ≤ entry z i := by
  by_cases hi : i < z.length
  · rw [entry_of_lt z i hi]
    exact h0 _ (List.getElem_mem _)
  · have hnone : z[i]? = none := List.getElem?_eq_none (not_lt.mp hi)
    simp [entry, hnone]

theorem exists_entry_pos (z : List ℝ) (h0 : ∀ a ∈ z, 0 ≤ a) (h1 : z.sum = 1) :
    ∃ i, i < z.length ∧ 0 < entry z i := by
  by_contra hcon
  push_neg at hcon
  have hzero : ∑ i in Finset.range z.length, entry z i = 0 := by
    apply Finset.sum_eq_zero
    intro i hi
    exact le_antisymm (hcon i (Finset.mem_range.mp hi)) (entry_nonneg z h0 i)
  rw [sum_entry, h1] at hzero
  exact one_ne_zero hzero

/-- Weighted sums with weights `z >= 0` summing to 1 are strictly monotone in the
constants. -/
theorem zsum_lt (a b : Nat → ℝ) (z : List ℝ) (h0 : ∀ c ∈ z, 0 ≤ c) (h1 : z.sum = 1)
    (hab : ∀ i, i < z.length → a i < b i) : zsum a z < zsum b z := by
  obtain ⟨j, hj, hjpos⟩ := exists_entry_pos z h0 h1
  unfold zsum
  apply Finset.sum_lt_sum
  · intro i hi
    exact mul_le_mul_of_nonneg_right (hab i (Finset.mem_range.mp hi)).le (entry_nonneg z h0 i)
  · exact ⟨j, Finset.mem_range.mpr hj, mul_lt_mul_of_pos_right (hab j hj) hjpos⟩

theorem zsum_pos (a : Nat → ℝ) (z : List ℝ) (h0 : ∀ c ∈ z, 0 ≤ c) (h1 : z.sum = 1)
    (ha : ∀ i, i < z.length → 0 < a i) : 0 < zsum a z := by
  have h := zsum_lt (fun _ => 0) a z h0 h1 ha
  simpa [zsum] using h

theorem preconditioner_denominator_pos (Tt Tc L x : ℝ) (hT0 : 0 < Tt) (hT1 : Tt < Tc)
    (hL : 0 < L) (h : (Tc - Tt) * x < Tt * L) :
    0 < 1 / Tc - (1 / Tt - 1 / Tc) / L * x := by
  have hTc0 : 0 < Tc := lt_trans hT0 hT1
  have heq : 1 / Tc - (1 / Tt - 1 / Tc) / L * x = (Tt * L - (Tc - Tt) * x) / (Tt * Tc * L) := by
    field_simp
    ring
  rw [heq]
  exact div_pos (by linarith) (mul_pos (mul_pos hT0 hTc0) hL)

theorem demoPure_constants (i : Nat) (hi : i < [(1 : ℝ)].length) :
    0 < Tt_i (demoPure : HelmholtzEOSMixtureBackend ℝ) i ∧
    Tt_i (demoPure : HelmholtzEOSMixtureBackend ℝ) i < Tc_i demoPure i ∧
    0 < pt_i (demoPure : HelmholtzEOSMixtureBackend ℝ) i ∧
    pt_i (demoPure : HelmholtzEOSMixtureBackend ℝ) i < pc_i demoPure i := by
  have h0 : i = 0 := by simpa using hi
  subst h0
  simp [Tt_i, Tc_i, pt_i, pc_i, demoPure]

theorem log_four : Real.log 4 = 2 * Real.log 2 := by
  have h : (4 : ℝ) = 2 ^ 2 := by norm_num
  rw [h, Real.log_pow]
  norm_num

theorem WilsonK_pos (HEOS : HelmholtzEOSMixtureBackend ℝ) (T p : ℝ) (i : Nat) :
    0 < WilsonK Real.log Real.exp HEOS T p i :=
  Real.exp_pos _

theorem WilsonK_strictAnti (HEOS : HelmholtzEOSMixtureBackend ℝ) (T p1 p2 : ℝ) (i : Nat)
    (hpc : 0 < pc_i HEOS i) (h1 : 0 < p1) (h12 : p1 < p2) :
    WilsonK Real.log Real.exp HEOS T p2 i < WilsonK Real.log Real.exp HEOS T p1 i := by
  unfold WilsonK
  apply Real.exp_lt_exp.mpr
  have h2 : 0 < p2 := lt_trans h1 h12
  have hdiv : pc_i HEOS i / p2 < pc_i HEOS i / p1 := div_lt_div_of_pos_left hpc h1 h12
  have hlog := Real.log_lt_log (div_pos hpc h2) hdiv
  linarith

theorem denominator_pos (beta k : ℝ) (hb0 : 0 ≤ beta) (hb1 : beta ≤ 1) (hk : 0 < k) :
    0 < 1 - beta + beta * k := by
  rcases eq_or_lt_of_le hb0 with h | h
  · rw [← h]; norm_num
  · have := mul_pos h hk
    linarith

theorem term_sub (beta k1 k2 : ℝ) (hb0 : 0 ≤ beta) (hb1 : beta ≤ 1) (hk1 : 0 < k1)
    (hk2 : 0 < k2) :
    (k1 - 1) / (1 - beta + beta * k1) - (k2 - 1) / (1 - beta + beta * k2)
      = (k1 - k2) / ((1 - beta + beta * k1) * (1 - beta + beta * k2)) := by
  have h1 := (denominator_pos beta k1 hb0 hb1 hk1).ne'
  have h2 := (denominator_pos beta k2 hb0 hb1 hk2).ne'
  field_simp
  ring

/-- The map `k -> (k - 1)/(1 - beta + beta k)` is strictly increasing on `k > 0` for
`beta` in `[0, 1]`. -/
theorem term_strictMono (beta k1 k2 : ℝ) (hb0 : 0 ≤ beta) (hb1 : beta ≤ 1) (hk2 : 0 < k2)
    (h : k2 < k1) :
    (k2 - 1) / (1 - beta + beta * k2) < (k1 - 1) / (1 - beta + beta * k1) := by
  have hk1 : 0 < k1 := lt_trans hk2 h
  have hs := term_sub beta k1 k2 hb0 hb1 hk1 hk2
  have hpos : 0 < (k1 - k2) / ((1 - beta + beta * k1) * (1 - beta + beta * k2)) :=
    div_pos (sub_pos.mpr h)
      (mul_pos (denominator_pos beta k1 hb0 hb1 hk1) (denominator_pos beta k2 hb0 hb1 hk2))
  linarith

/-- The Wilson residual at fixed `T` is strictly decreasing in `p > 0`. -/
theorem rachfordRice_strictAnti (HEOS : HelmholtzEOSMixtureBackend ℝ) (z : List ℝ)
    (hz0 : ∀ c ∈ z, 0 ≤ c) (hz1 : z.sum = 1) (hpc : ∀ i, i < z.length → 0 < pc_i HEOS i)
    (T beta : ℝ) (hb0 : 0 ≤ beta) (hb1 : beta ≤ 1) (p1 p2 : ℝ) (h1 : 0 < p1) (h12 : p1 < p2) :
    rachfordRice beta z (WilsonK Real.log Real.exp HEOS T p2)
      < rachfordRice beta z (WilsonK Real.log Real.exp HEOS T p1) := by
  obtain ⟨j, hj, hjpos⟩ := exists_entry_pos z hz0 hz1
  unfold rachfordRice
  have hterm : ∀ i, i < z.length →
      (WilsonK Real.log Real.exp HEOS T p2 i - 1)
          / (1 - beta + beta * WilsonK Real.log Real.exp HEOS T p2 i)
        < (WilsonK Real.log Real.exp HEOS T p1 i - 1)
          / (1 - beta + beta * WilsonK Real.log Real.exp HEOS T p1 i) := fun i hi =>
    term_strictMono beta _ _ hb0 hb1 (WilsonK_pos HEOS T p2 i)
      (WilsonK_strictAnti HEOS T p1 p2 i (hpc i hi) h1 h12)
  apply Finset.sum_lt_sum
  · intro i hi
    rw [mul_div_assoc, mul_div_assoc]
    exact mul_le_mul_of_nonneg_left (hterm i (Finset.mem_range.mp hi)).le (entry_nonneg z hz0 i)
  · refine ⟨j, Finset.mem_range.mpr hj, ?_⟩
    rw [mul_div_assoc, mul_div_assoc]
    exact mul_lt_mul_of_pos_left (hterm j hj) hjpos

theorem demoBackend_pc_pos (i : Nat) (hi : i < [(1 / 2 : ℝ), 1 / 2].length) :
    0 < pc_i (demoBackend : HelmholtzEOSMixtureBackend ℝ) i := by
  have h : i = 0 ∨ i = 1 := by
    simp at hi
    omega
  rcases h with h | h <;> subst h <;> simp [pc_i, demoBackend]

theorem getD_stored (f : Nat → ℝ) (K : List ℝ) (n i : Nat) (hi : i < n) :
    ((List.range n).map f ++ K.drop n).getD i 0 = f i := by
  rw [List.getD_eq_getElem?_getD, List.getElem?_append_left (by simpa using hi)]
  simp [List.getElem?_map, List.getElem?_range hi]

/-- If no K-factor exceeds 1 and the Rachford-Rice sum vanishes, every K-factor
of a component with positive mole fraction is 1. -/
theorem rachfordRice_zero_all_one (beta : ℝ) (z : List ℝ) (k : Nat → ℝ)
    (hzpos : ∀ c ∈ z, 0 < c) (hb0 : 0 ≤ beta) (hb1 : beta ≤ 1)
    (hk : ∀ i, i < z.length → 0 < k i) (hle : ∀ i, i < z.length → k i ≤ 1)
    (hr : rachfordRice beta z k = 0) : ∀ i, i < z.length → k i = 1 := by
  have hzi : ∀ i, i < z.length → 0 < entry z i := fun i hi => by
    rw [entry_of_lt z i hi]
    exact hzpos _ (List.getElem_mem _)
  have hnonpos : ∀ i ∈ Finset.range z.length,
      entry z i * (k i - 1) / (1 - beta + beta * k i) ≤ 0 := by
    intro i hi
    have hi1 := Finset.mem_range.mp hi
    apply div_nonpos_of_nonpos_of_nonneg
    · exact mul_nonpos_of_nonneg_of_nonpos (hzi i hi1).le (by linarith [hle i hi1])
    · exact (denominator_pos beta (k i) hb0 hb1 (hk i hi1)).le
  have hall := (Finset.sum_eq_zero_iff_of_nonpos hnonpos).mp hr
  intro i hi
  have h0 := hall i (Finset.mem_range.mpr hi)
  have hd := (denominator_pos beta (k i) hb0 hb1 (hk i hi)).ne'
  rw [div_eq_zero_iff] at h0
  rcases h0 with h0 | h0
  · rcases mul_eq_zero.mp h0 with h1 | h1
    · exact absurd h1 (hzi i hi).ne'
    · linarith
  · exact absurd h0 hd

theorem normalize_vector_sum (v : List ℝ) (h : v.sum ≠ 0) : (normalize_vector v).sum = 1 := by
  unfold normalize_vector
  simp only [div_eq_mul_inv]
  rw [List.sum_map_mul_right, List.map_id', mul_inv_cancel₀ h]

theorem normalize_vector_entry (v : List ℝ) (i : Nat) :
    entry (normalize_vector v) i = entry v i / v.sum := by
  unfold normalize_vector entry
  have h := @List.getD_map ℝ ℝ v 0 i (fun a => a / v.sum)
  simpa using h

theorem entry_x (beta : ℝ) (K z : List ℝ) (i : Nat) (hz : i < z.length) (hK : i < K.length) :
    entry (List.zipWith (fun zi Ki => zi / (1 - beta + beta * Ki)) z K) i
      = entry z i / (1 - beta + beta * entry K i) := by
  simp [entry, List.getD_eq_getElem?_getD, List.getElem?_zipWith, List.getElem?_eq_getElem hz,
    List.getElem?_eq_getElem hK]

theorem entry_y (beta : ℝ) (K z : List ℝ) (i : Nat) (hz : i < z.length) (hK : i < K.length) :
    entry (List.zipWith (fun Ki xi => Ki * xi) K
        (List.zipWith (fun zi Ki => zi / (1 - beta + beta * Ki)) z K)) i
      = entry K i * (entry z i / (1 - beta + beta * entry K i)) := by
  simp [entry, List.getD_eq_getElem?_getD, List.getElem?_zipWith, List.getElem?_eq_getElem hz,
    List.getElem?_eq_getElem hK]

theorem sum_x (beta : ℝ) (K z : List ℝ) (hlen : K.length = z.length) :
    (List.zipWith (fun zi Ki => zi / (1 - beta + beta * Ki)) z K).sum
      = ∑ i in Finset.range z.length, entry z i / (1 - beta + beta * entry K i) := by
  rw [← sum_entry]
  have hl : (List.zipWith (fun zi Ki => zi / (1 - beta + beta * Ki)) z K).length = z.length := by
    simp [hlen]
  rw [hl]
  apply Finset.sum_congr rfl
  intro i hi
  have hi1 := Finset.mem_range.mp hi
  exact entry_x beta K z i hi1 (hlen ▸ hi1)

theorem sum_y (beta : ℝ) (K z : List ℝ) (hlen : K.length = z.length) :
    (List.zipWith (fun Ki xi => Ki * xi) K
        (List.zipWith (fun zi Ki => zi / (1 - beta + beta * Ki)) z K)).sum
      = ∑ i in Finset.range z.length, entry K i * (entry z i / (1 - beta + beta * entry K i)) := by
  rw [← sum_entry]
  have hl : (List.zipWith (fun Ki xi => Ki * xi) K
        (List.zipWith (fun zi Ki => zi / (1 - beta + beta * Ki)) z K)).length = z.length := by
    simp [hlen]
  rw [hl]
  apply Finset.sum_congr rfl
  intro i hi
  have hi1 := Finset.mem_range.mp hi
  exact entry_y beta K z i hi1 (hlen ▸ hi1)

/-- The sums of the vectors before renormalisation: the denominators are positive,
`(1 - beta) Sx + beta Sy = sum(z)` and `Sy - Sx` is the Rachford-Rice sum. -/
theorem balance_sums (beta : ℝ) (K z : List ℝ) (hlen : K.length = z.length)
    (hb0 : 0 ≤ beta) (hb1 : beta ≤ 1) (hK : ∀ k ∈ K, 0 < k) :
    (∀ i, i < z.length → 0 < 1 - beta + beta * entry K i) ∧
    (1 - beta) * (∑ i in Finset.range z.length, entry z i / (1 - beta + beta * entry K i))
      + beta * (∑ i in Finset.range z.length,
          entry K i * (entry z i / (1 - beta + beta * entry K i))) = z.sum ∧
    (∑ i in Finset.range z.length, entry K i * (entry z i / (1 - beta + beta * entry K i)))
      - (∑ i in Finset.range z.length, entry z i / (1 - beta + beta * entry K i))
      = rachfordRice beta z (fun i => entry K i) := by
  have hKi : ∀ i, i < z.length → 0 < entry K i := fun i hi => by
    rw [entry_of_lt K i (hlen ▸ hi)]
    exact hK _ (List.getElem_mem _)
  have hd : ∀ i, i < z.length → 0 < 1 - beta + beta * entry K i := fun i hi =>
    denominator_pos beta _ hb0 hb1 (hKi i hi)
  refine ⟨hd, ?_, ?_⟩
  · rw [← sum_entry, Finset.mul_sum, Finset.mul_sum, ← Finset.sum_add_distrib]
    apply Finset.sum_congr rfl
    intro i hi
    have h := (hd i (Finset.mem_range.mp hi)).ne'
    field_simp
    ring
  · unfold rachfordRice
    rw [← Finset.sum_sub_distrib]
    apply Finset.sum_congr rfl
    intro i hi
    have h := (hd i (Finset.mem_range.mp hi)).ne'
    field_simp
    ring

/-- What the `imposed_T` branch of `saturation_preconditioner` computes: the
returned `p` has `ln p` on the straight line in `T` (not in `1/T`) through
`(Tt, ln pt)` and `(Tc, ln pc)`. -/
theorem preconditioner_imposed_T_linear_in_T (HEOS : HelmholtzEOSMixtureBackend ℝ)
    (z : List ℝ) (hz : z.length ≤ HEOS.components.length) (pt pc Tt Tc : ℝ)
    (hpt : pt = zsum (pt_i HEOS) z) (hpc : pc = zsum (pc_i HEOS) z)
    (hTt : Tt = zsum (Tt_i HEOS) z) (hTc : Tc = zsum (Tc_i HEOS) z)
    (hT1 : Tt < Tc) (hp0 : 0 < pt) (T : ℝ) :
    ∃ p : ℝ, saturation_preconditioner Real.log Real.exp HEOS T imposed_T z = Except.ok p ∧
      (T - Tt) * Real.log (pc / pt) = (Tc - Tt) * Real.log (p / pt) := by
  refine ⟨Real.exp (Real.log (pc / pt) / (Tc - Tt) * (T - Tt) + Real.log pt), ?_, ?_⟩
  · rw [preconditioner_eq Real.log Real.exp HEOS T imposed_T z hz, if_pos rfl,
      ← hpt, ← hpc, ← hTt, ← hTc]
  · have hd : Tc - Tt ≠ 0 := (sub_pos.mpr hT1).ne'
    rw [Real.log_div (Real.exp_pos _).ne' hp0.ne', Real.log_exp]
    field_simp
    ring

/-! ## Auxiliary lemmas: calls on an object in any state, bounds of the estimate -/

/-- Closed form of `WilsonK_resid::call` on an object in any state in which the
member that is not iterated on has been assigned. -/
theorem WilsonK_call_any [Field α] (log exp : α → α) (self : WilsonK_resid α) (v T p : α)
    (hT : (if self.input_type = imposed_T then self.T else some v) = some T)
    (hp : (if self.input_type = imposed_T then some v else self.p) = some p)
    (hz : self.z.length ≤ self.HEOS.components.length) (hK : self.z.length ≤ self.K.length) :
    self.call log exp v =
      Except.ok (rachfordRice self.beta self.z (WilsonK log exp self.HEOS T p),
        { input_type := self.input_type
          T := some T
          p := some p
          beta := self.beta
          z := self.z
          K := (List.range self.z.length).map (WilsonK log exp self.HEOS T p)
               ++ self.K.drop self.z.length
          HEOS := self.HEOS }) := by
  by_cases h : self.input_type = imposed_T
  · simp only [h, if_true] at hT hp
    have hp1 : v = p := Option.some.inj hp
    subst hp1
    have hloop := WilsonK_loop log exp { self with p := some v } T v hT rfl self.K
      self.z.length le_rfl hz hK
    simp only [WilsonK_resid.call, h, if_true]
    simp only [h] at hloop
    rw [hloop]
    simp [bind, Except.bind, pure, Except.pure, rachfordRice, hT]
  · simp only [h, if_false] at hT hp
    have hT1 : v = T := Option.some.inj hT
    subst hT1
    have hloop := WilsonK_loop log exp { self with T := some v } v p rfl hp self.K
      self.z.length le_rfl hz hK
    simp only [WilsonK_resid.call, h, if_false]
    rw [hloop]
    simp [bind, Except.bind, pure, Except.pure, rachfordRice, hp]

/-- The constructor yields a residual built from its arguments, bound to `K`. -/
theorem new_BuiltFrom (HEOS : HelmholtzEOSMixtureBackend α) (beta imposed : α) (it : Int)
    (z K : List α) :
    (WilsonK_resid.new HEOS beta imposed it z K).BuiltFrom HEOS beta imposed it z ∧
    (WilsonK_resid.new HEOS beta imposed it z K).K = K := by
  by_cases h : it = imposed_T <;> simp [WilsonK_resid.new, WilsonK_resid.BuiltFrom, h]

/-- Closed form of `WilsonK_resid::call` on a residual built from
`(HEOS, beta, imposed, it, z)`, in whatever state earlier calls left it. -/
theorem WilsonK_call_built [Field α] (log exp : α → α) (HEOS : HelmholtzEOSMixtureBackend α)
    (beta imposed v : α) (it : Int) (z : List α) (self : WilsonK_resid α)
    (hself : self.BuiltFrom HEOS beta imposed it z)
    (hz : z.length ≤ HEOS.components.length) (hK : z.length ≤ self.K.length) :
    self.call log exp v =
      Except.ok (rachfordRice beta z (WilsonK log exp HEOS (if it = imposed_T then imposed else v)
          (if it = imposed_T then v else imposed)),
        { input_type := it
          T := some (if it = imposed_T then imposed else v)
          p := some (if it = imposed_T then v else imposed)
          beta := beta
          z := z
          K := (List.range z.length).map (WilsonK log exp HEOS
                (if it = imposed_T then imposed else v) (if it = imposed_T then v else imposed))
               ++ self.K.drop z.length
          HEOS := HEOS }) := by
  obtain ⟨h1, h2, h3, h4, h5⟩ := hself
  have key := WilsonK_call_any log exp self v (if it = imposed_T then imposed else v)
    (if it = imposed_T then v else imposed)
    (by
      by_cases h : it = imposed_T
      · simpa [h1, h] using h5
      · simp [h1, h])
    (by
      by_cases h : it = imposed_T
      · simp [h1, h]
      · simpa [h1, h] using h5)
    (by rw [h3, h4]; exact hz) (by rw [h3]; exact hK)
  rw [key, h1, h2, h3, h4]

/-- With a member unassigned the first pass of the loop is undefined. -/
theorem WilsonK_loop_unassigned [Field α] (log exp : α → α) (self : WilsonK_resid α)
    (h : self.T = none ∨ self.p = none) (acc : List α × α) (n : Nat) :
    (List.range (n + 1)).foldlM (WilsonK_resid.step log exp self) acc
      = Except.error Fault.Undefined := by
  rw [List.range_succ_eq_map, List.foldlM_cons]
  have hstep : WilsonK_resid.step log exp self acc 0 = Except.error Fault.Undefined := by
    rcases h with h | h
    · simp [WilsonK_resid.step, readMember, h, bind, Except.bind]
    · cases hT : self.T <;> simp [WilsonK_resid.step, readMember, h, hT, bind, Except.bind]
  rw [hstep]
  rfl

/-- A call on a non-empty composition that returns has read both `T` and `p`:
the member that is not iterated on was assigned. -/
theorem WilsonK_call_members [Field α] (log exp : α → α) (self : WilsonK_resid α) (v : α)
    (r : α × WilsonK_resid α) (hn : 0 < self.z.length)
    (hcall : self.call log exp v = Except.ok r) :
    ∃ T p : α, (if self.input_type = imposed_T then self.T else some v) = some T ∧
      (if self.input_type = imposed_T then some v else self.p) = some p := by
  obtain ⟨k, hk⟩ : ∃ k, self.z.length = k + 1 := ⟨self.z.length - 1, by omega⟩
  by_cases h : self.input_type = imposed_T
  · simp only [h, if_true]
    cases hT : self.T with
    | some T => exact ⟨T, v, rfl, rfl⟩
    | none =>
      exfalso
      have hloop := WilsonK_loop_unassigned log exp { self with p := some v } (Or.inl hT)
        (self.K, 0) k
      simp only [WilsonK_resid.call, h, if_true, hk] at hcall
      simp only [h] at hloop
      rw [hloop] at hcall
      simp [bind, Except.bind] at hcall
  · simp only [h, if_false]
    cases hp : self.p with
    | some p => exact ⟨v, p, rfl, rfl⟩
    | none =>
      exfalso
      have hloop := WilsonK_loop_unassigned log exp { self with T := some v } (Or.inr hp)
        (self.K, 0) k
      simp only [WilsonK_resid.call, h, if_false, hk] at hcall
      rw [hloop] at hcall
      simp [bind, Except.bind] at hcall

theorem demoResid_BuiltFrom :
    (demoResid : WilsonK_resid ℝ).BuiltFrom demoBackend 0 1 imposed_T [1 / 2, 1 / 2] := by
  simp [demoResid, WilsonK_resid.BuiltFrom]

/-- Bounds on the denominator of the `imposed_p` branch while `ln(p/pc)` runs
between `-ln(pc/pt)` and `0`. -/
theorem preconditioner_denominator_bounds (Tt Tc L x : ℝ) (hT0 : 0 < Tt) (hT1 : Tt < Tc)
    (hL : 0 < L) (hx0 : x ≤ 0) (hx1 : -L ≤ x) :
    1 / Tc ≤ 1 / Tc - (1 / Tt - 1 / Tc) / L * x ∧
    1 / Tc - (1 / Tt - 1 / Tc) / L * x ≤ 1 / Tt := by
  have hTc0 : 0 < Tc := lt_trans hT0 hT1
  have hc : 0 < 1 / Tt - 1 / Tc := sub_pos.mpr (one_div_lt_one_div_of_lt hT0 hT1)
  have hu0 : x / L ≤ 0 := div_nonpos_of_nonpos_of_nonneg hx0 hL.le
  have hu1 : -1 ≤ x / L := by
    rw [le_div_iff₀ hL]
    linarith
  have heq : (1 / Tt - 1 / Tc) / L * x = (1 / Tt - 1 / Tc) * (x / L) := by ring
  rw [heq]
  constructor
  · nlinarith
  · nlinarith

/-- The threshold condition of the `imposed_p` branch holds up to the critical pressure. -/
theorem preconditioner_threshold_of_le (Tt Tc pt pc v : ℝ) (hT0 : 0 < Tt) (hT1 : Tt < Tc)
    (hp0 : 0 < pt) (hp1 : pt < pc) (hv : 0 < v) (hle : v ≤ pc) :
    (Tc - Tt) * Real.log (v / pc) < Tt * Real.log (pc / pt) := by
  have hpc0 : 0 < pc := lt_trans hp0 hp1
  have hL : 0 < Real.log (pc / pt) := Real.log_pos (by rw [one_lt_div hp0]; exact hp1)
  have hlog : Real.log (v / pc) ≤ 0 :=
    Real.log_nonpos (div_pos hv hpc0).le ((div_le_one hpc0).mpr hle)
  have h1 : (Tc - Tt) * Real.log (v / pc) ≤ 0 :=
    mul_nonpos_of_nonneg_of_nonpos (sub_pos.mpr hT1).le hlog
  have h2 : 0 < Tt * Real.log (pc / pt) := mul_pos hT0 hL
  linarith

theorem exp_mul_log_two : Real.exp (Real.log (2 / 1) / (2 - 1) * (2048 - 1) + Real.log 1)
    = (2 : ℝ) ^ 2047 := by
  have h : Real.log (2 / 1) / (2 - 1) * (2048 - 1) + Real.log 1
      = ((2047 : ℕ) : ℝ) * Real.log 2 := by
    rw [Real.log_one, div_one]
    push_cast
    ring
  rw [h, Real.exp_nat_mul, Real.exp_log (by norm_num)]

/-! ## The claims -/

/-- C1: for a component index `i` of the backend, `Wilson_lnK_factor` returns
`ln(p_c,i / p) + 5.373 (1 + omega_i) (1 - T_c,i / T)` with the component's
reducing pressure, reducing temperature and acentric factor. -/
theorem Wilson_lnK_factor_formula (HEOS : HelmholtzEOSMixtureBackend ℝ) (T p : ℝ) (i : Nat)
    (hi : i < HEOS.components.length) :
    Wilson_lnK_factor Real.log HEOS T p (i : Int) =
      Except.ok (Real.log (pc_i HEOS i / p)
        + 5.373 * (1 + omega_i HEOS i) * (1 - Tc_i HEOS i / T)) :=
  Wilson_lnK_factor_eq Real.log HEOS T p i hi

theorem Wilson_lnK_factor_formula_witness :
    (1 : Nat) < (demoBackend : HelmholtzEOSMixtureBackend ℝ).components.length ∧
    Wilson_lnK_factor Real.log demoBackend 2 3 ((1 : Nat) : Int) =
      Except.ok (Real.log (pc_i demoBackend 1 / 3)
        + 5.373 * (1 + omega_i demoBackend 1) * (1 - Tc_i demoBackend 1 / 2)) :=
  ⟨by simp [demoBackend], Wilson_lnK_factor_formula demoBackend 2 3 1 (by simp [demoBackend])⟩

/-- C2: on a residual built from `(HEOS, beta, imposed value, input_type, z)` and
bound to a vector `K`, in whatever state earlier calls left it (the constructor
yields such an object), `call(v)` returns
`sum_{i < z.size()} z_i (K_i - 1)/(1 - beta + beta K_i)` with
`K_i = exp(Wilson_lnK_factor(T, p, i))`, where `(T, p)` is `(imposed value, v)` for
`imposed_T` and `(v, imposed value)` otherwise; entry `i < z.size()` of the bound
vector is overwritten with `K_i`, the other entries are kept, and the object is
again a residual built from the same arguments. -/
theorem WilsonK_resid_call_value (HEOS : HelmholtzEOSMixtureBackend ℝ)
    (beta imposed v : ℝ) (it : Int) (z K0 : List ℝ) (self : WilsonK_resid ℝ)
    (hself : self.BuiltFrom HEOS beta imposed it z)
    (hz : z.length ≤ HEOS.components.length) (hK : z.length ≤ self.K.length)
    (T p : ℝ) (hT : T = if it = imposed_T then imposed else v)
    (hp : p = if it = imposed_T then v else imposed) :
    ((WilsonK_resid.new HEOS beta imposed it z K0).BuiltFrom HEOS beta imposed it z ∧
      (WilsonK_resid.new HEOS beta imposed it z K0).K = K0) ∧
    (∀ i : Nat, i < z.length →
      Except.map Real.exp (Wilson_lnK_factor Real.log HEOS T p (i : Int))
        = Except.ok (WilsonK Real.log Real.exp HEOS T p i)) ∧
    ∃ self1 : WilsonK_resid ℝ,
      self.call Real.log Real.exp v =
        Except.ok (∑ i in Finset.range z.length,
          entry z i * (WilsonK Real.log Real.exp HEOS T p i - 1)
            / (1 - beta + beta * WilsonK Real.log Real.exp HEOS T p i), self1) ∧
      self1.BuiltFrom HEOS beta imposed it z ∧
      self1.T = some T ∧ self1.p = some p ∧
      self1.K.length = self.K.length ∧
      (∀ i : Nat, i < z.length → self1.K[i]? = some (WilsonK Real.log Real.exp HEOS T p i)) ∧
      (∀ i : Nat, z.length ≤ i → self1.K[i]? = self.K[i]?) := by
  subst hT hp
  refine ⟨new_BuiltFrom HEOS beta imposed it z K0, ?_, _,
    WilsonK_call_built Real.log Real.exp HEOS beta imposed v it z self hself hz hK,
    ?_, rfl, rfl, ?_, ?_, ?_⟩
  · intro i hi
    rw [Wilson_lnK_factor_eq Real.log HEOS _ _ i (lt_of_lt_of_le hi hz)]
    rfl
  · refine ⟨rfl, rfl, rfl, rfl, ?_⟩
    by_cases h : it = imposed_T <;> simp [h]
  · simp; omega
  · intro i hi
    rw [List.getElem?_append_left (by simpa using hi)]
    simp [List.getElem?_map, List.getElem?_range hi]
  · intro i hi
    rw [List.getElem?_append_right (by simpa using hi)]
    simp
    congr 1
    omega

theorem WilsonK_resid_call_value_witness :
    ((WilsonK_resid.new demoBackend 0 1 imposed_T [1 / 2, 1 / 2] [7, 8, 9]).BuiltFrom
        demoBackend 0 1 imposed_T [(1 / 2 : ℝ), 1 / 2] ∧
      (WilsonK_resid.new demoBackend 0 1 imposed_T [(1 / 2 : ℝ), 1 / 2] [7, 8, 9]).K
        = [7, 8, 9]) ∧
    (∀ i : Nat, i < [(1 / 2 : ℝ), 1 / 2].length →
      Except.map Real.exp (Wilson_lnK_factor Real.log demoBackend 1 2 (i : Int))
        = Except.ok (WilsonK Real.log Real.exp demoBackend 1 2 i)) ∧
    ∃ self1 : WilsonK_resid ℝ,
      (demoResid : WilsonK_resid ℝ).call Real.log Real.exp 2 =
        Except.ok (∑ i in Finset.range [(1 / 2 : ℝ), 1 / 2].length,
          entry [(1 / 2 : ℝ), 1 / 2] i * (WilsonK Real.log Real.exp demoBackend 1 2 i - 1)
            / (1 - 0 + 0 * WilsonK Real.log Real.exp demoBackend 1 2 i), self1) ∧
      self1.BuiltFrom demoBackend 0 1 imposed_T [1 / 2, 1 / 2] ∧
      self1.T = some 1 ∧ self1.p = some 2 ∧
      self1.K.length = (demoResid : WilsonK_resid ℝ).K.length ∧
      (∀ i : Nat, i < [(1 / 2 : ℝ), 1 / 2].length →
        self1.K[i]? = some (WilsonK Real.log Real.exp demoBackend 1 2 i)) ∧
      (∀ i : Nat, [(1 / 2 : ℝ), 1 / 2].length ≤ i →
        self1.K[i]? = (demoResid : WilsonK_resid ℝ).K[i]?) :=
  WilsonK_resid_call_value demoBackend 0 1 2 imposed_T [1 / 2, 1 / 2] [7, 8, 9] demoResid
    demoResid_BuiltFrom (by simp [demoBackend]) (by simp [demoResid]) 1 2 (by simp) (by simp)

/-- C3: `saturation_Wilson` calls the secant root finder on the Wilson residual
bound to the backend's own `K` vector with initial guess `guess`, step `0.001`,
tolerance `1e-10` and at most `100` iterations; when that call returns `s`, it
throws `ValueError` exactly when `ValidNumber s` fails and otherwise returns `s`. -/
theorem saturation_Wilson_result [Field α]
    (Secant : WilsonK_resid α → α → α → α → Int → Except Fault (α × WilsonK_resid α))
    (ValidNumber : α → Bool)
    (HEOS : HelmholtzEOSMixtureBackend α) (beta input_value : α) (input_type : Int)
    (z : List α) (guess s : α) (R : WilsonK_resid α)
    (hS : Secant (WilsonK_resid.new HEOS beta input_value input_type z HEOS.K)
      guess 0.001 1e-10 100 = Except.ok (s, R)) :
    (saturation_Wilson Secant ValidNumber HEOS beta input_value input_type z guess
        = Except.error Fault.ValueError ↔ ValidNumber s = false) ∧
    saturation_Wilson Secant ValidNumber HEOS beta input_value input_type z guess
      = (if ValidNumber s = true then Except.ok (s, { HEOS with K := R.K })
         else Except.error Fault.ValueError) := by
  have key : saturation_Wilson Secant ValidNumber HEOS beta input_value input_type z guess
      = (if ValidNumber s = true then Except.ok (s, { HEOS with K := R.K })
         else Except.error Fault.ValueError) := by
    unfold saturation_Wilson
    simp only [hS, bind, Except.bind]
    cases hv : ValidNumber s <;> simp [pure, Except.pure, throw, throwThe, MonadExceptOf.throw]
  refine ⟨?_, key⟩
  rw [key]
  cases hv : ValidNumber s <;> simp

theorem saturation_Wilson_result_witness :
    demoSecant (WilsonK_resid.new (demoBackend : HelmholtzEOSMixtureBackend ℚ) 0 1 imposed_T
        [1 / 2, 1 / 2] (demoBackend : HelmholtzEOSMixtureBackend ℚ).K) 2 0.001 1e-10 100
      = Except.ok (2, { input_type := imposed_T, T := some 1, p := some 2, beta := 0
                        z := [1 / 2, 1 / 2], K := [1 / 2, 3 / 2], HEOS := demoBackend }) ∧
    ((saturation_Wilson demoSecant (fun a => decide (a < 1))
          (demoBackend : HelmholtzEOSMixtureBackend ℚ) 0 1 imposed_T [1 / 2, 1 / 2] 2
        = Except.error Fault.ValueError ↔ (fun a : ℚ => decide (a < 1)) 2 = false) ∧
     saturation_Wilson demoSecant (fun a => decide (a < 1))
          (demoBackend : HelmholtzEOSMixtureBackend ℚ) 0 1 imposed_T [1 / 2, 1 / 2] 2
        = (if (fun a : ℚ => decide (a < 1)) 2 = true
           then Except.ok (2, { (demoBackend : HelmholtzEOSMixtureBackend ℚ) with
                  K := [1 / 2, 3 / 2] })
           else Except.error Fault.ValueError)) := by
  have h : demoSecant (WilsonK_resid.new (demoBackend : HelmholtzEOSMixtureBackend ℚ) 0 1
        imposed_T [1 / 2, 1 / 2] (demoBackend : HelmholtzEOSMixtureBackend ℚ).K) 2 0.001 1e-10 100
      = Except.ok (2, { input_type := imposed_T, T := some 1, p := some 2, beta := 0
                        z := [1 / 2, 1 / 2], K := [1 / 2, 3 / 2], HEOS := demoBackend }) := by
    unfold demoSecant
    rw [WilsonK_call_eq _ _ _ _ _ _ _ _ _ (by simp [demoBackend]) (by simp [demoBackend])]
    simp [Except.map, WilsonK, demoBackend, pc_i, omega_i, Tc_i, List.range_succ]
  exact ⟨h, saturation_Wilson_result demoSecant (fun a => decide (a < 1)) demoBackend 0 1
    imposed_T [1 / 2, 1 / 2] 2 2 _ h⟩

/-- C4: in `imposed_p` mode, with `pt, pc, Tt, Tc` the `z`-weighted sums of the
triple-point pressure, critical pressure, triple-point temperature and critical
temperature, `0 < Tt < Tc` and `0 < pt < pc`: for every `p > 0` at which the
returned quotient has a non-zero denominator, the returned `T` satisfies
`(1/T - 1/Tc) ln(pt/pc) = (1/Tt - 1/Tc) ln(p/pc)`; `p = pc` returns `Tc` and
`p = pt` returns `Tt`. -/
theorem saturation_preconditioner_imposed_p_line (HEOS : HelmholtzEOSMixtureBackend ℝ)
    (z : List ℝ) (hz : z.length ≤ HEOS.components.length) (pt pc Tt Tc : ℝ)
    (hpt : pt = zsum (pt_i HEOS) z) (hpc : pc = zsum (pc_i HEOS) z)
    (hTt : Tt = zsum (Tt_i HEOS) z) (hTc : Tc = zsum (Tc_i HEOS) z)
    (hT0 : 0 < Tt) (hT1 : Tt < Tc) (hp0 : 0 < pt) (hp1 : pt < pc) :
    (∀ p : ℝ, 0 < p →
      1 / Tc - (1 / Tt - 1 / Tc) / Real.log (pc / pt) * Real.log (p / pc) ≠ 0 →
      ∃ T : ℝ, saturation_preconditioner Real.log Real.exp HEOS p imposed_p z = Except.ok T ∧
        (1 / T - 1 / Tc) * Real.log (pt / pc) = (1 / Tt - 1 / Tc) * Real.log (p / pc)) ∧
    saturation_preconditioner Real.log Real.exp HEOS pc imposed_p z = Except.ok Tc ∧
    saturation_preconditioner Real.log Real.exp HEOS pt imposed_p z = Except.ok Tt := by
  have hne : imposed_p ≠ imposed_T := by decide
  have hres : ∀ p : ℝ, saturation_preconditioner Real.log Real.exp HEOS p imposed_p z
      = Except.ok (1 / (1 / Tc - (1 / Tt - 1 / Tc) / Real.log (pc / pt) * Real.log (p / pc))) := by
    intro p
    rw [preconditioner_eq Real.log Real.exp HEOS p imposed_p z hz, if_neg hne, if_pos rfl,
      ← hpt, ← hpc, ← hTt, ← hTc]
  have hpc0 : 0 < pc := lt_trans hp0 hp1
  have hTc0 : 0 < Tc := lt_trans hT0 hT1
  have hL : 0 < Real.log (pc / pt) := Real.log_pos (by rw [one_lt_div hp0]; exact hp1)
  have hinv : Real.log (pt / pc) = - Real.log (pc / pt) := by
    rw [← Real.log_inv, inv_div]
  refine ⟨?_, ?_, ?_⟩
  · intro p _ hD
    refine ⟨_, hres p, ?_⟩
    rw [one_div_one_div, hinv]
    field_simp
    ring
  · rw [hres pc, div_self hpc0.ne', Real.log_one, mul_zero, sub_zero, one_div_one_div]
  · have hD : 1 / Tc - (1 / Tt - 1 / Tc) / Real.log (pc / pt) * -Real.log (pc / pt) = 1 / Tt := by
      field_simp
      ring
    rw [hres pt, hinv, hD, one_div_one_div]

theorem saturation_preconditioner_imposed_p_line_witness :
    (∀ p : ℝ, 0 < p →
      1 / (2 : ℝ) - (1 / 1 - 1 / 2) / Real.log (2 / 1) * Real.log (p / 2) ≠ 0 →
      ∃ T : ℝ, saturation_preconditioner Real.log Real.exp demoPure p imposed_p [1]
          = Except.ok T ∧
        (1 / T - 1 / 2) * Real.log (1 / 2) = (1 / 1 - 1 / 2) * Real.log (p / 2)) ∧
    saturation_preconditioner Real.log Real.exp demoPure 2 imposed_p [1] = Except.ok (2 : ℝ) ∧
    saturation_preconditioner Real.log Real.exp demoPure 1 imposed_p [1] = Except.ok (1 : ℝ) :=
  saturation_preconditioner_imposed_p_line demoPure [1] (by simp [demoPure]) 1 2 1 2
    zsum_demoPure_pt.symm zsum_demoPure_pc.symm zsum_demoPure_Tt.symm zsum_demoPure_Tc.symm
    (by norm_num) (by norm_num) (by norm_num) (by norm_num)

/-- C5 at a concrete input: for the one-component backend with triple point
`(Tt, pt) = (1, 1)` and critical point `(Tc, pc) = (2, 2)`, `z = [1]` and
`T = 3/2`, the `imposed_T` branch returns `p = exp(ln 2 / 2)`, and `(1/T, ln p)` is
not on the straight line through `(1/Tt, ln pt)` and `(1/Tc, ln pc)`:
`(1/T - 1/Tt) ln(pc/pt)` differs from `(1/Tc - 1/Tt) ln(p/pt)`. -/
theorem saturation_preconditioner_imposed_T_off_line :
    zsum (Tt_i (demoPure : HelmholtzEOSMixtureBackend ℝ)) [1] = 1 ∧
    zsum (Tc_i (demoPure : HelmholtzEOSMixtureBackend ℝ)) [1] = 2 ∧
    zsum (pt_i (demoPure : HelmholtzEOSMixtureBackend ℝ)) [1] = 1 ∧
    zsum (pc_i (demoPure : HelmholtzEOSMixtureBackend ℝ)) [1] = 2 ∧
    saturation_preconditioner Real.log Real.exp demoPure (3 / 2) imposed_T [1]
      = Except.ok (Real.exp (Real.log 2 / 2)) ∧
    (1 / (3 / 2 : ℝ) - 1 / 1) * Real.log (2 / 1)
      ≠ (1 / 2 - 1 / 1) * Real.log (Real.exp (Real.log 2 / 2) / 1) := by
  refine ⟨zsum_demoPure_Tt, zsum_demoPure_Tc, zsum_demoPure_pt, zsum_demoPure_pc, ?_, ?_⟩
  · rw [preconditioner_eq Real.log Real.exp demoPure (3 / 2) imposed_T [1] (by simp [demoPure]),
      if_pos rfl, zsum_demoPure_pt, zsum_demoPure_pc, zsum_demoPure_Tt, zsum_demoPure_Tc]
    norm_num
    ring
  · have h2 : 0 < Real.log 2 := Real.log_pos (by norm_num)
    simp only [div_one, Real.log_exp]
    intro h
    nlinarith

/-- C6 as stated fails: the one-component backend with triple point `(1, 1)`
and critical point `(2, 2)` and `z = [1]` meet every requirement, yet in
`imposed_p` mode the denominator `1/Tc - (1/Tt - 1/Tc)/ln(pc/pt) * ln(p/pc)` is
zero at the positive input `p = 4`, and at `p = 8` the call returns `-2`. In
`imposed_T` mode the exact value at `T = 2048` is `2^2047`, above `2^1024` and so
above every finite double. -/
theorem saturation_preconditioner_positive_fails :
    [(1 : ℝ)].length ≤ (demoPure : HelmholtzEOSMixtureBackend ℝ).components.length ∧
    (∀ c ∈ [(1 : ℝ)], 0 ≤ c) ∧ [(1 : ℝ)].sum = 1 ∧
    (∀ i, i < [(1 : ℝ)].length →
      0 < Tt_i (demoPure : HelmholtzEOSMixtureBackend ℝ) i ∧
      Tt_i (demoPure : HelmholtzEOSMixtureBackend ℝ) i < Tc_i demoPure i ∧
      0 < pt_i (demoPure : HelmholtzEOSMixtureBackend ℝ) i ∧
      pt_i (demoPure : HelmholtzEOSMixtureBackend ℝ) i < pc_i demoPure i) ∧
    1 / zsum (Tc_i (demoPure : HelmholtzEOSMixtureBackend ℝ)) [1]
      - (1 / zsum (Tt_i (demoPure : HelmholtzEOSMixtureBackend ℝ)) [1]
          - 1 / zsum (Tc_i (demoPure : HelmholtzEOSMixtureBackend ℝ)) [1])
        / Real.log (zsum (pc_i (demoPure : HelmholtzEOSMixtureBackend ℝ)) [1]
            / zsum (pt_i (demoPure : HelmholtzEOSMixtureBackend ℝ)) [1])
        * Real.log (4 / zsum (pc_i (demoPure : HelmholtzEOSMixtureBackend ℝ)) [1]) = 0 ∧
    saturation_preconditioner Real.log Real.exp demoPure 8 imposed_p [1]
      = Except.ok (-2 : ℝ) ∧
    ¬ ((0 : ℝ) < -2) ∧
    saturation_preconditioner Real.log Real.exp demoPure 2048 imposed_T [1]
      = Except.ok ((2 : ℝ) ^ 2047) ∧
    (2 : ℝ) ^ 1024 ≤ (2 : ℝ) ^ 2047 := by
  have h2 : 0 < Real.log 2 := Real.log_pos (by norm_num)
  have hne : imposed_p ≠ imposed_T := by decide
  refine ⟨by simp [demoPure], by simp, by simp, demoPure_constants, ?_, ?_, by norm_num,
    ?_, ?_⟩
  · rw [zsum_demoPure_pt, zsum_demoPure_pc, zsum_demoPure_Tt, zsum_demoPure_Tc]
    have e1 : (4 : ℝ) / 2 = 2 := by norm_num
    rw [e1, div_one, div_one, div_mul_cancel₀ _ h2.ne']
    norm_num
  · rw [preconditioner_eq Real.log Real.exp demoPure 8 imposed_p [1] (by simp [demoPure]),
      if_neg hne, if_pos rfl,
      zsum_demoPure_pt, zsum_demoPure_pc, zsum_demoPure_Tt, zsum_demoPure_Tc]
    have e1 : (8 : ℝ) / 2 = 4 := by norm_num
    rw [e1, log_four, div_one, div_one]
    congr 1
    field_simp
    norm_num
  · rw [preconditioner_eq Real.log Real.exp demoPure 2048 imposed_T [1] (by simp [demoPure]),
      if_pos rfl, zsum_demoPure_pt, zsum_demoPure_pc, zsum_demoPure_Tt, zsum_demoPure_Tc,
      exp_mul_log_two]
  · exact pow_le_pow_right₀ (by norm_num) (by norm_num)

/-- C6, amended: for a composition with non-negative entries summing to 1 (no
longer than the component list), components with `0 < Tt_i < Tc_i` and
`0 < pt_i < pc_i`, and a strictly positive input value that, in `imposed_p` mode,
is at most `pc` or satisfies `(Tc - Tt) ln(p/pc) < Tt ln(pc/pt)`: the denominators
`Tc - Tt` and `ln(pc/pt)` are non-zero, in `imposed_p` mode so is
`1/Tc - (1/Tt - 1/Tc)/ln(pc/pt) * ln(p/pc)`, the arguments of the logarithms are
positive, and the call returns an estimate that is strictly positive in exact
arithmetic. For an input between the triple and critical values (`Tt <= T <= Tc`
in `imposed_T` mode, `pt <= p <= pc` in `imposed_p` mode) the estimate lies
between the triple and critical values of the other variable, so it is bounded. -/
theorem saturation_preconditioner_positive (HEOS : HelmholtzEOSMixtureBackend ℝ)
    (z : List ℝ) (hz : z.length ≤ HEOS.components.length)
    (hz0 : ∀ c ∈ z, 0 ≤ c) (hz1 : z.sum = 1)
    (hc : ∀ i, i < z.length → 0 < Tt_i HEOS i ∧ Tt_i HEOS i < Tc_i HEOS i ∧
      0 < pt_i HEOS i ∧ pt_i HEOS i < pc_i HEOS i)
    (pt pc Tt Tc : ℝ)
    (hpt : pt = zsum (pt_i HEOS) z) (hpc : pc = zsum (pc_i HEOS) z)
    (hTt : Tt = zsum (Tt_i HEOS) z) (hTc : Tc = zsum (Tc_i HEOS) z)
    (input_type : Int) (input_value : ℝ) (hv : 0 < input_value)
    (hmode : input_type = imposed_T ∨
      (input_type = imposed_p ∧
        (input_value ≤ pc ∨
          (Tc - Tt) * Real.log (input_value / pc) < Tt * Real.log (pc / pt)))) :
    0 < Tt ∧ Tt < Tc ∧ 0 < pt ∧ pt < pc ∧ 0 < input_value / pc ∧
    Tc - Tt ≠ 0 ∧ Real.log (pc / pt) ≠ 0 ∧
    (input_type = imposed_T ∨
      1 / Tc - (1 / Tt - 1 / Tc) / Real.log (pc / pt) * Real.log (input_value / pc) ≠ 0) ∧
    ∃ r : ℝ, saturation_preconditioner Real.log Real.exp HEOS input_value input_type z
        = Except.ok r ∧ 0 < r ∧
      (input_type = imposed_T → Tt ≤ input_value → input_value ≤ Tc → pt ≤ r ∧ r ≤ pc) ∧
      (input_type = imposed_p → pt ≤ input_value → input_value ≤ pc → Tt ≤ r ∧ r ≤ Tc) := by
  have hT0 : 0 < Tt := hTt ▸ zsum_pos _ z hz0 hz1 (fun i hi => (hc i hi).1)
  have hT1 : Tt < Tc := by
    rw [hTt, hTc]; exact zsum_lt _ _ z hz0 hz1 (fun i hi => (hc i hi).2.1)
  have hp0 : 0 < pt := hpt ▸ zsum_pos _ z hz0 hz1 (fun i hi => (hc i hi).2.2.1)
  have hp1 : pt < pc := by
    rw [hpt, hpc]; exact zsum_lt _ _ z hz0 hz1 (fun i hi => (hc i hi).2.2.2)
  have hTc0 : 0 < Tc := lt_trans hT0 hT1
  have hpc0 : 0 < pc := lt_trans hp0 hp1
  have hL : 0 < Real.log (pc / pt) := Real.log_pos (by rw [one_lt_div hp0]; exact hp1)
  have hLeq : Real.log (pc / pt) = Real.log pc - Real.log pt :=
    Real.log_div hpc0.ne' hp0.ne'
  have hne : imposed_p ≠ imposed_T := by decide
  have hthr : input_type = imposed_p → (input_value ≤ pc ∨
      (Tc - Tt) * Real.log (input_value / pc) < Tt * Real.log (pc / pt)) →
      (Tc - Tt) * Real.log (input_value / pc) < Tt * Real.log (pc / pt) := by
    intro _ h
    rcases h with h | h
    · exact preconditioner_threshold_of_le Tt Tc pt pc input_value hT0 hT1 hp0 hp1 hv h
    · exact h
  refine ⟨hT0, hT1, hp0, hp1, div_pos hv hpc0, (sub_pos.mpr hT1).ne', hL.ne', ?_, ?_⟩
  · rcases hmode with h | ⟨hm, h⟩
    · exact Or.inl h
    · right
      exact (preconditioner_denominator_pos Tt Tc _ _ hT0 hT1 hL (hthr hm h)).ne'
  · rw [preconditioner_eq Real.log Real.exp HEOS input_value input_type z hz,
      ← hpt, ← hpc, ← hTt, ← hTc]
    rcases hmode with h | ⟨h, hr⟩
    · rw [if_pos h]
      refine ⟨_, rfl, Real.exp_pos _, ?_, ?_⟩
      · intro _ hlo hhi
        have hd : 0 < Tc - Tt := sub_pos.mpr hT1
        have hq0 : 0 ≤ Real.log (pc / pt) / (Tc - Tt) * (input_value - Tt) :=
          mul_nonneg (div_pos hL hd).le (sub_nonneg.mpr hlo)
        have hq1 : Real.log (pc / pt) / (Tc - Tt) * (input_value - Tt)
            ≤ Real.log (pc / pt) := by
          rw [div_mul_eq_mul_div, div_le_iff₀ hd]
          exact mul_le_mul_of_nonneg_left (by linarith) hL.le
        constructor
        · calc pt = Real.exp (Real.log pt) := (Real.exp_log hp0).symm
            _ ≤ _ := Real.exp_le_exp.mpr (by linarith)
        · calc _ ≤ Real.exp (Real.log pc) := Real.exp_le_exp.mpr (by linarith)
            _ = pc := Real.exp_log hpc0
      · intro h2
        rw [h] at h2
        exact absurd h2.symm hne
    · subst h
      rw [if_neg hne, if_pos rfl]
      have hD := preconditioner_denominator_pos Tt Tc _ _ hT0 hT1 hL (hthr rfl hr)
      refine ⟨_, rfl, one_div_pos.mpr hD, ?_, ?_⟩
      · intro h2
        exact absurd h2 hne
      · intro _ hlo hhi
        have hx0 : Real.log (input_value / pc) ≤ 0 :=
          Real.log_nonpos (div_pos hv hpc0).le ((div_le_one hpc0).mpr hhi)
        have hx1 : -Real.log (pc / pt) ≤ Real.log (input_value / pc) := by
          rw [← Real.log_inv, inv_div]
          exact Real.log_le_log (div_pos hp0 hpc0) (div_le_div_of_nonneg_right hlo hpc0.le)
        obtain ⟨b1, b2⟩ := preconditioner_denominator_bounds Tt Tc _ _ hT0 hT1 hL hx0 hx1
        constructor
        · rw [le_div_iff₀ hD]
          calc Tt * _ ≤ Tt * (1 / Tt) := mul_le_mul_of_nonneg_left b2 hT0.le
            _ = 1 := by field_simp
        · rw [div_le_iff₀ hD]
          calc (1 : ℝ) = Tc * (1 / Tc) := by field_simp
            _ ≤ Tc * _ := mul_le_mul_of_nonneg_left b1 hTc0.le

theorem saturation_preconditioner_positive_witness :
    0 < (1 : ℝ) ∧ (1 : ℝ) < 2 ∧ 0 < (1 : ℝ) ∧ (1 : ℝ) < 2 ∧ 0 < (1 : ℝ) / 2 ∧
    (2 : ℝ) - 1 ≠ 0 ∧ Real.log (2 / 1) ≠ 0 ∧
    (imposed_p = imposed_T ∨
      1 / (2 : ℝ) - (1 / 1 - 1 / 2) / Real.log (2 / 1) * Real.log (1 / 2) ≠ 0) ∧
    ∃ r : ℝ, saturation_preconditioner Real.log Real.exp demoPure 1 imposed_p [1]
        = Except.ok r ∧ 0 < r ∧
      (imposed_p = imposed_T → (1 : ℝ) ≤ 1 → (1 : ℝ) ≤ 2 → 1 ≤ r ∧ r ≤ 2) ∧
      (imposed_p = imposed_p → (1 : ℝ) ≤ 1 → (1 : ℝ) ≤ 2 → 1 ≤ r ∧ r ≤ 2) :=
  saturation_preconditioner_positive demoPure [1] (by simp [demoPure]) (by simp) (by simp)
    demoPure_constants 1 2 1 2
    zsum_demoPure_pt.symm zsum_demoPure_pc.symm zsum_demoPure_Tt.symm zsum_demoPure_Tc.symm
    imposed_p 1 (by norm_num) (Or.inr ⟨rfl, Or.inl (by norm_num)⟩)

/-- C7 as stated fails for the renormalised vectors: with `beta = 1/2`,
`K = [2, 1]` and `z = [1/2, 1/2]` the result is `x = [2/5, 3/5]`,
`y = [4/7, 3/7]`, and `(1 - beta) x_0 + beta y_0 = 17/35`, not `z_0 = 1/2`. -/
theorem x_and_y_from_K_balance_fails :
    x_and_y_from_K (1 / 2 : ℝ) [2, 1] [1 / 2, 1 / 2] = ([2 / 5, 3 / 5], [4 / 7, 3 / 7]) ∧
    entry [(1 / 2 : ℝ), 1 / 2] 0
      ≠ (1 - 1 / 2) * entry (x_and_y_from_K (1 / 2 : ℝ) [2, 1] [1 / 2, 1 / 2]).1 0
        + 1 / 2 * entry (x_and_y_from_K (1 / 2 : ℝ) [2, 1] [1 / 2, 1 / 2]).2 0 := by
  have h : x_and_y_from_K (1 / 2 : ℝ) [2, 1] [1 / 2, 1 / 2]
      = ([2 / 5, 3 / 5], [4 / 7, 3 / 7]) := by
    simp [x_and_y_from_K, normalize_vector]
    norm_num
  refine ⟨h, ?_⟩
  rw [h]
  simp [entry]
  norm_num

/-- C7, amended: for `beta` in `[0, 1]`, positive K-factors and a composition `z`
of the same length with non-negative entries summing to 1, `x_and_y_from_K`
returns `x` and `y` with `sum(x) = 1` and `sum(y) = 1`; with `Sx` and `Sy` the sums
of the vectors before renormalisation, `z_i = (1 - beta) Sx x_i + beta Sy y_i` for
every component, and `z_i = (1 - beta) x_i + beta y_i` for every component when
`sum_i z_i (K_i - 1)/(1 - beta + beta K_i) = 0`. -/
theorem x_and_y_from_K_sums (beta : ℝ) (K z : List ℝ) (hlen : K.length = z.length)
    (hb0 : 0 ≤ beta) (hb1 : beta ≤ 1) (hK : ∀ k ∈ K, 0 < k)
    (hz0 : ∀ c ∈ z, 0 ≤ c) (hz1 : z.sum = 1) (Sx Sy : ℝ)
    (hSx : Sx = ∑ i in Finset.range z.length, entry z i / (1 - beta + beta * entry K i))
    (hSy : Sy = ∑ i in Finset.range z.length,
      entry K i * (entry z i / (1 - beta + beta * entry K i))) :
    (x_and_y_from_K beta K z).1.sum = 1 ∧ (x_and_y_from_K beta K z).2.sum = 1 ∧
    (∀ i, i < z.length →
      entry z i = (1 - beta) * Sx * entry (x_and_y_from_K beta K z).1 i
        + beta * Sy * entry (x_and_y_from_K beta K z).2 i) ∧
    (rachfordRice beta z (fun i => entry K i) = 0 →
      ∀ i, i < z.length →
        entry z i = (1 - beta) * entry (x_and_y_from_K beta K z).1 i
          + beta * entry (x_and_y_from_K beta K z).2 i) := by
  obtain ⟨hd, hbal, hdiff⟩ := balance_sums beta K z hlen hb0 hb1 hK
  rw [← hSx, ← hSy] at hbal hdiff
  have hKi : ∀ i, i < z.length → 0 < entry K i := fun i hi => by
    rw [entry_of_lt K i (hlen ▸ hi)]
    exact hK _ (List.getElem_mem _)
  obtain ⟨j, hj, hjpos⟩ := exists_entry_pos z hz0 hz1
  have hSxpos : 0 < Sx := by
    rw [hSx]
    apply Finset.sum_pos'
    · intro i hi
      exact div_nonneg (entry_nonneg z hz0 i) (hd i (Finset.mem_range.mp hi)).le
    · exact ⟨j, Finset.mem_range.mpr hj, div_pos hjpos (hd j hj)⟩
  have hSypos : 0 < Sy := by
    rw [hSy]
    apply Finset.sum_pos'
    · intro i hi
      have hi1 := Finset.mem_range.mp hi
      exact mul_nonneg (hKi i hi1).le (div_nonneg (entry_nonneg z hz0 i) (hd i hi1).le)
    · exact ⟨j, Finset.mem_range.mpr hj, mul_pos (hKi j hj) (div_pos hjpos (hd j hj))⟩
  have hxs : (List.zipWith (fun zi Ki => zi / (1 - beta + beta * Ki)) z K).sum = Sx := by
    rw [hSx]; exact sum_x beta K z hlen
  have hys : (List.zipWith (fun Ki xi => Ki * xi) K
        (List.zipWith (fun zi Ki => zi / (1 - beta + beta * Ki)) z K)).sum = Sy := by
    rw [hSy]; exact sum_y beta K z hlen
  have hx1 : ∀ i, i < z.length → entry (x_and_y_from_K beta K z).1 i
      = entry z i / (1 - beta + beta * entry K i) / Sx := by
    intro i hi
    simp only [x_and_y_from_K]
    rw [normalize_vector_entry, hxs, entry_x beta K z i hi (hlen ▸ hi)]
  have hy1 : ∀ i, i < z.length → entry (x_and_y_from_K beta K z).2 i
      = entry K i * (entry z i / (1 - beta + beta * entry K i)) / Sy := by
    intro i hi
    simp only [x_and_y_from_K]
    rw [normalize_vector_entry, hys, entry_y beta K z i hi (hlen ▸ hi)]
  have hgen : ∀ i, i < z.length →
      entry z i = (1 - beta) * Sx * entry (x_and_y_from_K beta K z).1 i
        + beta * Sy * entry (x_and_y_from_K beta K z).2 i := by
    intro i hi
    rw [hx1 i hi, hy1 i hi]
    have h := (hd i hi).ne'
    field_simp
    ring
  refine ⟨?_, ?_, hgen, ?_⟩
  · simp only [x_and_y_from_K]
    exact normalize_vector_sum _ (by rw [hxs]; exact hSxpos.ne')
  · simp only [x_and_y_from_K]
    exact normalize_vector_sum _ (by rw [hys]; exact hSypos.ne')
  · intro hr i hi
    rw [hr] at hdiff
    have hSxSy : Sy = Sx := by linarith
    have hSx1 : Sx = 1 := by
      rw [hSxSy, hz1] at hbal
      linarith
    have h := hgen i hi
    rw [hSxSy, hSx1] at h
    simpa using h

theorem x_and_y_from_K_sums_witness :
    rachfordRice (1 / 2 : ℝ) [1 / 2, 1 / 2] (fun i => entry [(2 : ℝ), 1 / 2] i) = 0 ∧
    (x_and_y_from_K (1 / 2 : ℝ) [2, 1 / 2] [1 / 2, 1 / 2]).1.sum = 1 ∧
    (x_and_y_from_K (1 / 2 : ℝ) [2, 1 / 2] [1 / 2, 1 / 2]).2.sum = 1 ∧
    (∀ i, i < [(1 / 2 : ℝ), 1 / 2].length →
      entry [(1 / 2 : ℝ), 1 / 2] i
        = (1 - 1 / 2) * 1 * entry (x_and_y_from_K (1 / 2 : ℝ) [2, 1 / 2] [1 / 2, 1 / 2]).1 i
          + 1 / 2 * 1 * entry (x_and_y_from_K (1 / 2 : ℝ) [2, 1 / 2] [1 / 2, 1 / 2]).2 i) ∧
    (rachfordRice (1 / 2 : ℝ) [1 / 2, 1 / 2] (fun i => entry [(2 : ℝ), 1 / 2] i) = 0 →
      ∀ i, i < [(1 / 2 : ℝ), 1 / 2].length →
        entry [(1 / 2 : ℝ), 1 / 2] i
          = (1 - 1 / 2) * entry (x_and_y_from_K (1 / 2 : ℝ) [2, 1 / 2] [1 / 2, 1 / 2]).1 i
            + 1 / 2 * entry (x_and_y_from_K (1 / 2 : ℝ) [2, 1 / 2] [1 / 2, 1 / 2]).2 i) :=
  ⟨by simp [rachfordRice, Finset.sum_range_succ, entry]; norm_num,
   x_and_y_from_K_sums (1 / 2) [2, 1 / 2] [1 / 2, 1 / 2] (by simp) (by norm_num) (by norm_num)
    (by intro k hk; simp at hk; rcases hk with h | h <;> rw [h] <;> norm_num)
    (by intro c hc; simp at hc; rw [hc]; norm_num) (by norm_num) 1 1
    (by simp [Finset.sum_range_succ, entry]; norm_num)
    (by simp [Finset.sum_range_succ, entry]; norm_num)⟩

/-- C8: when a call of `WilsonK_resid.call`, on an object in any state, returns
exactly 0 for a mixture whose mole fractions are all positive and `beta` in
`[0, 1]`, and the K-factors that call stored for the components are not all
equal, then a largest stored K-factor is strictly greater than 1. -/
theorem WilsonK_root_max_gt_one (self self1 : WilsonK_resid ℝ) (v : ℝ)
    (hz : self.z.length ≤ self.HEOS.components.length) (hK : self.z.length ≤ self.K.length)
    (hzpos : ∀ c ∈ self.z, 0 < c) (hb0 : 0 ≤ self.beta) (hb1 : self.beta ≤ 1)
    (hcall : self.call Real.log Real.exp v = Except.ok (0, self1))
    (hne : ∃ i j, i < self.z.length ∧ j < self.z.length ∧
      self1.K.getD i 0 ≠ self1.K.getD j 0)
    (m : Nat)
    (hmax : ∀ j, j < self.z.length → self1.K.getD j 0 ≤ self1.K.getD m 0) :
    1 < self1.K.getD m 0 := by
  have hn : 0 < self.z.length := by
    obtain ⟨i, _, hi, _⟩ := hne
    omega
  obtain ⟨T, p, hT, hp⟩ := WilsonK_call_members Real.log Real.exp self v _ hn hcall
  rw [WilsonK_call_any Real.log Real.exp self v T p hT hp hz hK] at hcall
  have hinj := Except.ok.inj hcall
  have hr := congrArg Prod.fst hinj
  have hs := congrArg Prod.snd hinj
  simp only at hr hs
  have hstored : ∀ i, i < self.z.length → self1.K.getD i 0
      = WilsonK Real.log Real.exp self.HEOS T p i := by
    intro i hi
    rw [← hs]
    exact getD_stored _ self.K self.z.length i hi
  by_contra hcon
  have hle : ∀ i, i < self.z.length → WilsonK Real.log Real.exp self.HEOS T p i ≤ 1 := by
    intro i hi
    rw [← hstored i hi]
    exact le_trans (hmax i hi) (not_lt.mp hcon)
  have hone := rachfordRice_zero_all_one self.beta self.z _ hzpos hb0 hb1
    (fun i _ => WilsonK_pos self.HEOS _ _ i) hle hr
  obtain ⟨i, j, hi, hj, hij⟩ := hne
  apply hij
  rw [hstored i hi, hstored j hj, hone i hi, hone j hj]

theorem WilsonK_root_max_gt_one_witness :
    (demoResid : WilsonK_resid ℝ).call Real.log Real.exp 2
      = Except.ok ((0 : ℝ), { input_type := imposed_T, T := some 1, p := some 2, beta := 0
                              z := [1 / 2, 1 / 2], K := [1 / 2, 3 / 2], HEOS := demoBackend }) ∧
    1 < [(1 / 2 : ℝ), 3 / 2].getD 1 0 := by
  have hcall : (demoResid : WilsonK_resid ℝ).call Real.log Real.exp 2
      = Except.ok ((0 : ℝ), { input_type := imposed_T, T := some 1, p := some 2, beta := 0
                              z := [1 / 2, 1 / 2], K := [1 / 2, 3 / 2], HEOS := demoBackend }) := by
    rw [WilsonK_call_any Real.log Real.exp demoResid 2 1 2 (by simp [demoResid])
      (by simp [demoResid]) (by simp [demoResid, demoBackend]) (by simp [demoResid])]
    have e0 : WilsonK Real.log Real.exp (demoBackend : HelmholtzEOSMixtureBackend ℝ) 1 2 0
        = 1 / 2 := by
      simp [WilsonK, pc_i, omega_i, Tc_i, demoBackend]
      rw [← Real.log_inv, Real.exp_log (by norm_num)]
    have e1 : WilsonK Real.log Real.exp (demoBackend : HelmholtzEOSMixtureBackend ℝ) 1 2 1
        = 3 / 2 := by
      simp [WilsonK, pc_i, omega_i, Tc_i, demoBackend]
      rw [Real.exp_log (by norm_num)]
    simp [demoResid, rachfordRice, Finset.sum_range_succ, List.range_succ, e0, e1, entry]
    norm_num
  exact ⟨hcall, WilsonK_root_max_gt_one demoResid _ 2
    (by simp [demoResid, demoBackend]) (by simp [demoResid])
    (by intro c hc; simp [demoResid] at hc; rw [hc]; norm_num)
    (by simp [demoResid]) (by simp [demoResid]) hcall
    ⟨0, 1, by simp [demoResid], by simp [demoResid], by simp; norm_num⟩ 1
    (by
      intro j hj
      have h : j = 0 ∨ j = 1 := by
        simp [demoResid] at hj
        omega
      rcases h with h | h <;> subst h <;> norm_num)⟩

/-- C9: with a composition no longer than the component list,
`saturation_preconditioner` throws `ValueError` exactly for an `input_type` that is
neither `imposed_T` nor `imposed_p`, and returns an estimate exactly for
`imposed_T` and `imposed_p`. -/
theorem saturation_preconditioner_tag [Field α] (log exp : α → α)
    (HEOS : HelmholtzEOSMixtureBackend α) (input_value : α) (input_type : Int) (z : List α)
    (hz : z.length ≤ HEOS.components.length) :
    (saturation_preconditioner log exp HEOS input_value input_type z
        = Except.error Fault.ValueError
      ↔ (input_type ≠ imposed_T ∧ input_type ≠ imposed_p)) ∧
    ((∃ r : α, saturation_preconditioner log exp HEOS input_value input_type z = Except.ok r)
      ↔ (input_type = imposed_T ∨ input_type = imposed_p)) := by
  rw [preconditioner_eq log exp HEOS input_value input_type z hz]
  have hne : imposed_p ≠ imposed_T := by decide
  by_cases h1 : input_type = imposed_T
  · simp [h1]
  · by_cases h2 : input_type = imposed_p
    · subst h2
      simp [hne]
    · simp [h1, h2]

theorem saturation_preconditioner_tag_witness :
    [(1 / 2 : ℚ), 1 / 2].length ≤ (demoBackend : HelmholtzEOSMixtureBackend ℚ).components.length ∧
    ((saturation_preconditioner (fun a => a) (fun a => a) demoBackend 1 7 [(1 / 2 : ℚ), 1 / 2]
        = Except.error Fault.ValueError
      ↔ ((7 : Int) ≠ imposed_T ∧ (7 : Int) ≠ imposed_p)) ∧
    ((∃ r : ℚ, saturation_preconditioner (fun a => a) (fun a => a) demoBackend 1 7
        [(1 / 2 : ℚ), 1 / 2] = Except.ok r)
      ↔ ((7 : Int) = imposed_T ∨ (7 : Int) = imposed_p))) :=
  ⟨by simp [demoBackend],
   saturation_preconditioner_tag (fun a => a) (fun a => a) demoBackend 1 7 [1 / 2, 1 / 2]
    (by simp [demoBackend])⟩

/-- C10: for a residual built in `imposed_T` mode (any imposed `T`), `beta` in
`[0, 1]`, a composition with non-negative entries summing to 1 and positive
critical pressures: whatever states `s1` and `s2` earlier calls left the object
in, the value `call` returns at `p1` from `s1` is strictly greater than the value
it returns at `p2 > p1 > 0` from `s2`, and the object stays such a residual; this
holds in particular when `s2` is the state the call at `p1` left. Hence two
positive pressures at which `call` returns `0` coincide. -/
theorem WilsonK_resid_strictly_decreasing (HEOS : HelmholtzEOSMixtureBackend ℝ)
    (z : List ℝ) (hz : z.length ≤ HEOS.components.length)
    (hz0 : ∀ c ∈ z, 0 ≤ c) (hz1 : z.sum = 1) (hpc : ∀ i, i < z.length → 0 < pc_i HEOS i)
    (T beta : ℝ) (hb0 : 0 ≤ beta) (hb1 : beta ≤ 1) (s1 s2 : WilsonK_resid ℝ)
    (h1 : s1.BuiltFrom HEOS beta T imposed_T z) (h2 : s2.BuiltFrom HEOS beta T imposed_T z)
    (hK1 : z.length ≤ s1.K.length) (hK2 : z.length ≤ s2.K.length) :
    (∀ p1 p2 : ℝ, 0 < p1 → p1 < p2 →
      ∃ (r1 r2 : ℝ) (t1 t2 : WilsonK_resid ℝ),
        s1.call Real.log Real.exp p1 = Except.ok (r1, t1) ∧
        s2.call Real.log Real.exp p2 = Except.ok (r2, t2) ∧
        r2 < r1 ∧
        t1.BuiltFrom HEOS beta T imposed_T z ∧ z.length ≤ t1.K.length ∧
        t2.BuiltFrom HEOS beta T imposed_T z ∧ z.length ≤ t2.K.length) ∧
    (∀ p1 p2 : ℝ, 0 < p1 → p1 < p2 →
      ∃ (r1 r2 : ℝ) (t1 t2 : WilsonK_resid ℝ),
        s1.call Real.log Real.exp p1 = Except.ok (r1, t1) ∧
        t1.call Real.log Real.exp p2 = Except.ok (r2, t2) ∧
        r2 < r1) ∧
    (∀ p1 p2 : ℝ, 0 < p1 → p1 < p2 →
      ∃ (r1 r2 : ℝ) (t1 t2 : WilsonK_resid ℝ),
        s1.call Real.log Real.exp p2 = Except.ok (r2, t2) ∧
        t2.call Real.log Real.exp p1 = Except.ok (r1, t1) ∧
        r2 < r1) ∧
    (∀ (p1 p2 : ℝ) (t1 t2 : WilsonK_resid ℝ), 0 < p1 → 0 < p2 →
      s1.call Real.log Real.exp p1 = Except.ok (0, t1) →
      s2.call Real.log Real.exp p2 = Except.ok (0, t2) →
      p1 = p2) := by
  have hcall : ∀ (s : WilsonK_resid ℝ), s.BuiltFrom HEOS beta T imposed_T z →
      z.length ≤ s.K.length → ∀ p : ℝ,
      ∃ t : WilsonK_resid ℝ, s.call Real.log Real.exp p
          = Except.ok (rachfordRice beta z (WilsonK Real.log Real.exp HEOS T p), t) ∧
        t.BuiltFrom HEOS beta T imposed_T z ∧ z.length ≤ t.K.length := by
    intro s hs hK p
    have h := WilsonK_call_built Real.log Real.exp HEOS beta T p imposed_T z s hs hz hK
    simp only [if_true] at h
    refine ⟨_, h, ⟨rfl, rfl, rfl, rfl, by simp⟩, ?_⟩
    simp
  have hanti := rachfordRice_strictAnti HEOS z hz0 hz1 hpc T beta hb0 hb1
  refine ⟨?_, ?_, ?_, ?_⟩
  · intro p1 p2 hp1 h12
    obtain ⟨t1, e1, b1, k1⟩ := hcall s1 h1 hK1 p1
    obtain ⟨t2, e2, b2, k2⟩ := hcall s2 h2 hK2 p2
    exact ⟨_, _, t1, t2, e1, e2, hanti p1 p2 hp1 h12, b1, k1, b2, k2⟩
  · intro p1 p2 hp1 h12
    obtain ⟨t1, e1, b1, k1⟩ := hcall s1 h1 hK1 p1
    obtain ⟨t2, e2, _, _⟩ := hcall t1 b1 k1 p2
    exact ⟨_, _, t1, t2, e1, e2, hanti p1 p2 hp1 h12⟩
  · intro p1 p2 hp1 h12
    obtain ⟨t2, e2, b2, k2⟩ := hcall s1 h1 hK1 p2
    obtain ⟨t1, e1, _, _⟩ := hcall t2 b2 k2 p1
    exact ⟨_, _, t1, t2, e2, e1, hanti p1 p2 hp1 h12⟩
  · intro p1 p2 t1 t2 hp1 hp2 e1 e2
    obtain ⟨u1, f1, _, _⟩ := hcall s1 h1 hK1 p1
    obtain ⟨u2, f2, _, _⟩ := hcall s2 h2 hK2 p2
    rw [f1] at e1
    rw [f2] at e2
    have r1 : rachfordRice beta z (WilsonK Real.log Real.exp HEOS T p1) = 0 :=
      congrArg Prod.fst (Except.ok.inj e1)
    have r2 : rachfordRice beta z (WilsonK Real.log Real.exp HEOS T p2) = 0 :=
      congrArg Prod.fst (Except.ok.inj e2)
    rcases lt_trichotomy p1 p2 with h | h | h
    · have := hanti p1 p2 hp1 h
      linarith
    · exact h
    · have := hanti p2 p1 hp2 h
      linarith

theorem WilsonK_resid_strictly_decreasing_witness :
    (∀ p1 p2 : ℝ, 0 < p1 → p1 < p2 →
      ∃ (r1 r2 : ℝ) (t1 t2 : WilsonK_resid ℝ),
        (WilsonK_resid.new demoBackend 0 1 imposed_T [1 / 2, 1 / 2] [0, 0]).call
          Real.log Real.exp p1 = Except.ok (r1, t1) ∧
        (demoResid : WilsonK_resid ℝ).call Real.log Real.exp p2 = Except.ok (r2, t2) ∧
        r2 < r1 ∧
        t1.BuiltFrom demoBackend 0 1 imposed_T [1 / 2, 1 / 2] ∧
        [(1 / 2 : ℝ), 1 / 2].length ≤ t1.K.length ∧
        t2.BuiltFrom demoBackend 0 1 imposed_T [1 / 2, 1 / 2] ∧
        [(1 / 2 : ℝ), 1 / 2].length ≤ t2.K.length) ∧
    (∀ p1 p2 : ℝ, 0 < p1 → p1 < p2 →
      ∃ (r1 r2 : ℝ) (t1 t2 : WilsonK_resid ℝ),
        (WilsonK_resid.new demoBackend 0 1 imposed_T [1 / 2, 1 / 2] [0, 0]).call
          Real.log Real.exp p1 = Except.ok (r1, t1) ∧
        t1.call Real.log Real.exp p2 = Except.ok (r2, t2) ∧
        r2 < r1) ∧
    (∀ p1 p2 : ℝ, 0 < p1 → p1 < p2 →
      ∃ (r1 r2 : ℝ) (t1 t2 : WilsonK_resid ℝ),
        (WilsonK_resid.new demoBackend 0 1 imposed_T [1 / 2, 1 / 2] [0, 0]).call
          Real.log Real.exp p2 = Except.ok (r2, t2) ∧
        t2.call Real.log Real.exp p1 = Except.ok (r1, t1) ∧
        r2 < r1) ∧
    (∀ (p1 p2 : ℝ) (t1 t2 : WilsonK_resid ℝ), 0 < p1 → 0 < p2 →
      (WilsonK_resid.new demoBackend 0 1 imposed_T [1 / 2, 1 / 2] [0, 0]).call
        Real.log Real.exp p1 = Except.ok (0, t1) →
      (demoResid : WilsonK_resid ℝ).call Real.log Real.exp p2 = Except.ok (0, t2) →
      p1 = p2) :=
  WilsonK_resid_strictly_decreasing demoBackend [1 / 2, 1 / 2] (by simp [demoBackend])
    (by intro c hc; simp at hc; rw [hc]; norm_num) (by norm_num) demoBackend_pc_pos
    1 0 (by norm_num) (by norm_num)
    (WilsonK_resid.new demoBackend 0 1 imposed_T [1 / 2, 1 / 2] [0, 0]) demoResid
    (new_BuiltFrom demoBackend 0 1 imposed_T [1 / 2, 1 / 2] [0, 0]).1 demoResid_BuiltFrom
    (by
      rw [(new_BuiltFrom (demoBackend : HelmholtzEOSMixtureBackend ℝ) 0 1 imposed_T
        [1 / 2, 1 / 2] [0, 0]).2]
      simp)
    (by simp [demoResid])

end SaturationSolvers

end CoolProp
